import Mathlib

/-!
Verification development for the replicas repository.

The rank engine (`OrgRolesQ`) is a shallow embedding of the SQL operations in
`repo/pgdb` on the `organization_roles` table: a database is a list of role
rows, every SQL statement becomes a pure function on that list, and the
`now()` timestamp is passed explicitly.  The profile consumer is embedded from
`consumers`: the transaction wrapper commits the closure's final state exactly
when the closure returns nil, and rolls back to the initial state otherwise.
-/

/-- One row of the `organization_roles` table. -/
structure Role where
  id : Nat
  organizationId : Nat
  head : Bool
  rank : Nat
  name : String
  description : String
  color : String
  createdAt : Nat
  updatedAt : Nat
deriving DecidableEq, Repr

/-- The `organization_roles` table: one row per role. -/
abbrev Db := List Role

/-- Input of `OrgRolesQ.Insert` (`InsertRoleParams`). -/
structure InsertRoleParams where
  organizationId : Nat
  head : Bool
  rank : Nat
  name : String
  description : String
  color : String
deriving DecidableEq, Repr

/-- Error taxonomy of the rank operations, mirroring the error returns of
`UpdateRolesRanks`: empty organization, target rank out of `[0..n-1]`,
role not in the organization, and two roles assigned the same rank (the
conflict error carries both role identities). -/
inductive RankErr where
  | noRoles (organizationId : Nat)
  | outOfRange (rank n : Nat)
  | notInOrg (roleId organizationId : Nat)
  | duplicateRank (rank prevId roleId : Nat)
deriving DecidableEq, Repr

deriving instance DecidableEq for Except

namespace OrgRolesQ

/-- `OrgRolesQ.Insert`: the `sqlInsertAtRank` statement.  The `bumped` CTE
shifts every role of the organization with `rank >= desiredRank` up by one
(also touching `updated_at`), and the `ins` CTE inserts the new role at
`desiredRank`; the inserted row is returned.  No validation of the rank is
performed anywhere in the function. -/
def Insert (db : Db) (data : InsertRoleParams) (newId now : Nat) : Role × Db :=
  let bumped := db.map (fun s =>
    if s.organizationId = data.organizationId ∧ data.rank ≤ s.rank then
      { s with rank := s.rank + 1, updatedAt := now }
    else s)
  let r : Role :=
    { id := newId, organizationId := data.organizationId, head := data.head,
      rank := data.rank, name := data.name, description := data.description,
      color := data.color, createdAt := now, updatedAt := now }
  (r, bumped ++ [r])

/-- The row inserted by `Insert` (the `ins` CTE values). -/
def insertedRole (data : InsertRoleParams) (newId now : Nat) : Role :=
  { id := newId, organizationId := data.organizationId, head := data.head,
    rank := data.rank, name := data.name, description := data.description,
    color := data.color, createdAt := now, updatedAt := now }

/-- `OrgRolesQ.DeleteAndShiftRanks`: the `del` CTE deletes the row with the
given id, returning its organization and rank; the joined UPDATE decrements
the rank of every remaining role of the same organization whose rank is
greater.  If no row matches the id, nothing changes. -/
def DeleteAndShiftRanks (db : Db) (roleId now : Nat) : Db :=
  match db.find? (fun s => s.id = roleId) with
  | none => db
  | some del =>
    (db.filter (fun s => s.id ≠ roleId)).map (fun s =>
      if s.organizationId = del.organizationId ∧ del.rank < s.rank then
        { s with rank := s.rank - 1, updatedAt := now }
      else s)

/-- `OrgRolesQ.UpdateRoleRank`: first the role's organization and current rank
are read (`sqlGet`); if the rank already equals `newRank` the role is
re-selected and returned without any write.  Otherwise `sqlMove` rewrites the
whole organization in one statement: the moved role receives `newRank`, roles
between the destination (inclusive) and the origin (exclusive) shift by one
toward the vacated slot, and every other rank is kept (`ELSE rank`). -/
def UpdateRoleRank (db : Db) (roleId newRank now : Nat) : Option Role × Db :=
  match db.find? (fun s => s.id = roleId) with
  | none => (none, db)
  | some r =>
    if r.rank = newRank then
      (db.find? (fun s => s.id = roleId), db)
    else
      let db' := db.map (fun s =>
        if s.organizationId = r.organizationId then
          { s with
            rank :=
              if s.id = roleId then newRank
              else if newRank < r.rank ∧ newRank ≤ s.rank ∧ s.rank < r.rank then
                s.rank + 1
              else if r.rank < newRank ∧ r.rank < s.rank ∧ s.rank ≤ newRank then
                s.rank - 1
              else s.rank,
            updatedAt := now }
        else s)
      (db'.find? (fun s => s.id = roleId), db')

/-- The order used by `Select` with `OrderByRoleRank(true)`:
`ORDER BY r.rank ASC, r.id ASC`. -/
def roleLe (a b : Role) : Prop := a.rank < b.rank ∨ (a.rank = b.rank ∧ a.id ≤ b.id)

instance : DecidableRel roleLe := fun a b =>
  inferInstanceAs (Decidable (a.rank < b.rank ∨ (a.rank = b.rank ∧ a.id ≤ b.id)))

instance : IsTotal Role roleLe :=
  ⟨by intro a b; unfold roleLe; omega⟩

instance : IsTrans Role roleLe :=
  ⟨by intro a b c hab hbc; unfold roleLe at hab hbc ⊢; omega⟩

/-- The role set of one organization in rank order, as loaded at the start of
`UpdateRolesRanks` (`FilterByOrganizationID` + `OrderByRoleRank(true)`). -/
def selectByOrg (db : Db) (organizationId : Nat) : List Role :=
  (db.filter (fun s => s.organizationId = organizationId)).insertionSort roleLe

/-- The validation loop of `UpdateRolesRanks` over the partial assignment.
`used` accumulates the `usedRank` map as a list of `(rank, roleId)` pairs.
Each entry is checked in order: target rank in `[0..n-1]`, role member of the
organization, and no other role already holding the same target rank (the
conflict error reports both role identities). -/
def validateOrder (ids : List Nat) (organizationId n : Nat) :
    List (Nat × Nat) → List (Nat × Nat) → Except RankErr (List (Nat × Nat))
  | [], used => .ok used
  | (roleId, newRank) :: rest, used =>
    if n ≤ newRank then .error (.outOfRange newRank n)
    else if roleId ∈ ids then
      match used.find? (fun e => e.1 = newRank) with
      | some e =>
        if e.2 ≠ roleId then .error (.duplicateRank newRank e.2 roleId)
        else validateOrder ids organizationId n rest used
      | none => validateOrder ids organizationId n rest ((newRank, roleId) :: used)
    else .error (.notInOrg roleId organizationId)

/-- The target-permutation fill loop of `UpdateRolesRanks`: position `i` takes
the explicitly assigned role if `usedRank` holds rank `i`, otherwise the next
unassigned role from `rest`.  After a successful validation the `rest` queue
is never exhausted; the `0` in the empty-queue branch marks the index-out-of-
range that the original `rest[j]` access would raise there. -/
def fillPositions (used : List (Nat × Nat)) : Nat → Nat → List Nat → List Nat
  | _, 0, _ => []
  | i, fuel + 1, rest =>
    match used.find? (fun e => e.1 = i) with
    | some e => e.2 :: fillPositions used (i + 1) fuel rest
    | none =>
      match rest with
      | [] => 0 :: fillPositions used (i + 1) fuel []
      | x :: xs => x :: fillPositions used (i + 1) fuel xs

/-- The diff loop of `UpdateRolesRanks`: position `i` contributes the pair
`(target id, i)` exactly when the role currently at position `i` differs from
the target id, i.e. the role's rank is actually rewritten. -/
def changedPairs : List Role → List Nat → Nat → List (Nat × Nat)
  | _, [], _ => []
  | [], _ :: _, _ => []
  | r :: rs, t :: ts, i =>
    if r.id ≠ t then (t, i) :: changedPairs rs ts (i + 1)
    else changedPairs rs ts (i + 1)

/-- `OrgRolesQ.UpdateRolesRanks`: load the organization's roles in rank order
(empty organization is an error), validate the partial assignment, build the
full target permutation (assigned roles at their ranks, remaining ranks filled
in increasing order with the unassigned roles in their prior relative order),
diff against the current order, return the unchanged role list if nothing
moved, and otherwise persist and return only the changed `(role, rank)`
pairs.  On any error the database is untouched. -/
def UpdateRolesRanks (db : Db) (organizationId : Nat) (order : List (Nat × Nat))
    (now : Nat) : Except RankErr (List Role) × Db :=
  let roles := selectByOrg db organizationId
  if roles.isEmpty then (.error (.noRoles organizationId), db)
  else
    let n := roles.length
    let ids := roles.map Role.id
    match validateOrder ids organizationId n order [] with
    | .error e => (.error e, db)
    | .ok used =>
      let rest := ids.filter (fun x => (order.find? (fun e => e.1 = x)).isNone)
      let target := fillPositions used 0 n rest
      let changed := changedPairs roles target 0
      if changed.isEmpty then (.ok roles, db)
      else
        let db' := db.map (fun s =>
          if s.organizationId = organizationId then
            match changed.find? (fun c => c.1 = s.id) with
            | some c => { s with rank := c.2, updatedAt := now }
            | none => s
          else s)
        let out := changed.filterMap (fun c =>
          (db.find? (fun s => s.id = c.1 ∧ s.organizationId = organizationId)).map
            (fun s => { s with rank := c.2, updatedAt := now }))
        (.ok out, db')

end OrgRolesQ

/-! ## Consumer side: contracts and the profiles consumer -/

/-- `contracts.ProfileUpdatedEvent`. -/
def ProfileUpdatedEvent : String := "profile.updated"

/-- A broker message: key, payload and metadata headers. -/
structure KMessage where
  key : String
  value : String
  headers : List (String × String)
deriving DecidableEq, Repr

/-- `subscriber.Header`: the value of the first header with the given key,
`none` when the message carries no such header. -/
def headerValue (m : KMessage) (k : String) : Option String :=
  (m.headers.find? (fun h => h.1 = k)).map (fun h => h.2)

/-- The handlers the profiles consumer can resolve. -/
inductive ProfileHandler where
  | profileUpdated
deriving DecidableEq, Repr

/-- The handler-resolution callback of `Profile.Run`: read the `event_type`
header; a missing header or an event type other than `profile.updated`
resolves no handler (the message is skipped, not an error). -/
def resolveProfileHandler (m : KMessage) : Option ProfileHandler :=
  match headerValue m "event_type" with
  | none => none
  | some et =>
    if et = ProfileUpdatedEvent then some ProfileHandler.profileUpdated
    else none

/-- One row of the inbox control table (`box.InboxEvent`): identity, message
key and processing status. -/
structure InboxEvent where
  id : Nat
  key : String
  status : String
deriving DecidableEq, Repr

/-- The `pending` status an inbox event is created with. -/
def pendingStatus : String := "pending"

/-- Modelled from the spec: `CreateInboxEvent` of the Inbox interface (the
implementation lives in the external kafkakit box package).  The identity is
derived deterministically from the message, so a redelivery resolves to the
already recorded row; a first delivery inserts a new row with status
`pending`. -/
def createInboxEvent (inbox : List InboxEvent) (mid : Nat) (k : String) :
    InboxEvent × List InboxEvent :=
  match inbox.find? (fun e => e.id = mid) with
  | some e => (e, inbox)
  | none =>
    let e : InboxEvent := { id := mid, key := k, status := pendingStatus }
    (e, inbox ++ [e])

/-- Modelled from the spec: `UpdateInboxEventStatus` of the Inbox interface
sets the status of the recorded event with the given identity. -/
def updateInboxStatus (inbox : List InboxEvent) (mid : Nat) (status : String) :
    List InboxEvent :=
  inbox.map (fun e => if e.id = mid then { e with status := status } else e)

/-- The replica state the profiles consumer acts on: the inbox table plus the
domain-effect side (the profile upserts the Event Processor performed). -/
structure CState where
  inbox : List InboxEvent
  effects : List String
deriving DecidableEq, Repr

/-- `Profile.ProfileUpdated`, the per-message unit of work, with the
transaction semantics modelled from the spec: the closure's state is committed
exactly when the closure returns nil, and rolled back otherwise.  `createOk`
and `updOk` say whether the two inbox store calls succeed; `proc` is the Event
Processor capability (domain effect plus returned status).  A failing
`CreateInboxEvent` makes the closure return the error, so the transaction
rolls back.  A failing `UpdateInboxEventStatus` is only logged: the closure
still returns nil and the transaction commits with the processor's effect
applied but the inbox status untouched. -/
def profileUpdatedTx (s : CState) (mid : Nat) (k : String)
    (createOk updOk : Bool) (proc : List String → List String × String) :
    CState × Bool :=
  if createOk = false then (s, false)
  else
    let create := createInboxEvent s.inbox mid k
    let run := proc s.effects
    if updOk then
      ({ inbox := updateInboxStatus create.2 create.1.id run.2,
         effects := run.1 }, true)
    else
      ({ inbox := create.2, effects := run.1 }, true)

/-! ## Invariants and the operation language of the rank engine -/

/-- The roles of one organization (in table order). -/
def rolesOf (db : Db) (organizationId : Nat) : List Role :=
  db.filter (fun s => s.organizationId = organizationId)

/-- The ranks held by one organization's roles. -/
def ranksOf (db : Db) (organizationId : Nat) : List Nat :=
  (rolesOf db organizationId).map Role.rank

/-- The dense-rank invariant for one organization: its rank multiset is
exactly `{0, ..., n-1}` with `n` the organization's role count. -/
def DenseRanks (db : Db) (organizationId : Nat) : Prop :=
  (ranksOf db organizationId).Perm (List.range (rolesOf db organizationId).length)

instance (db : Db) (o : Nat) : Decidable (DenseRanks db o) :=
  inferInstanceAs (Decidable ((ranksOf db o).Perm (List.range (rolesOf db o).length)))

/-- Every organization that owns a role is dense (organizations without roles
are trivially dense). -/
def DenseAll (db : Db) : Prop :=
  ∀ o ∈ db.map Role.organizationId, DenseRanks db o

instance (db : Db) : Decidable (DenseAll db) :=
  inferInstanceAs (Decidable (∀ o ∈ db.map Role.organizationId, DenseRanks db o))

/-- Well-formedness of the table: role ids are unique (the primary key). -/
def WF (db : Db) : Prop := (db.map Role.id).Nodup

instance (db : Db) : Decidable (WF db) :=
  inferInstanceAs (Decidable ((db.map Role.id).Nodup))

/-- The four rank operations, as invoked by the write APIs. -/
inductive Op where
  | insert (data : InsertRoleParams) (newId : Nat)
  | move (roleId newRank : Nat)
  | delete (roleId : Nat)
  | bulk (organizationId : Nat) (order : List (Nat × Nat))
deriving Repr

/-- The state reached by one rank operation (errors leave the state as is). -/
def applyOp (db : Db) : Op → Db
  | .insert data newId => (OrgRolesQ.Insert db data newId 0).2
  | .move roleId newRank => (OrgRolesQ.UpdateRoleRank db roleId newRank 0).2
  | .delete roleId => OrgRolesQ.DeleteAndShiftRanks db roleId 0
  | .bulk organizationId order => (OrgRolesQ.UpdateRolesRanks db organizationId order 0).2

/-- The state reached by a sequence of rank operations. -/
def applyOps (db : Db) (ops : List Op) : Db := ops.foldl applyOp db

/-- In-range inputs for one operation: an insert uses a desired rank of at
most the organization's current count and a fresh id, a move targets a rank
below the role's organization count, a bulk reorder is keyed by a map (no
repeated role key); deletes are unrestricted. -/
def ValidOp (db : Db) : Op → Prop
  | .insert data newId =>
    data.rank ≤ (rolesOf db data.organizationId).length ∧ newId ∉ db.map Role.id
  | .move roleId newRank =>
    ∀ r ∈ db, r.id = roleId → newRank < (rolesOf db r.organizationId).length
  | .delete _ => True
  | .bulk _ order => (order.map Prod.fst).Nodup

instance (db : Db) : (op : Op) → Decidable (ValidOp db op)
  | .insert data _ =>
    inferInstanceAs (Decidable (data.rank ≤ (rolesOf db data.organizationId).length ∧ _))
  | .move roleId newRank =>
    inferInstanceAs (Decidable (∀ r ∈ db, r.id = roleId → newRank < _))
  | .delete _ => inferInstanceAs (Decidable True)
  | .bulk _ order => inferInstanceAs (Decidable ((order.map Prod.fst).Nodup))

/-- Every operation of the sequence is in range for the state it runs on. -/
def ValidSeq : Db → List Op → Prop
  | _, [] => True
  | db, op :: ops => ValidOp db op ∧ ValidSeq (applyOp db op) ops

instance instDecValidSeq : (db : Db) → (ops : List Op) → Decidable (ValidSeq db ops)
  | _, [] => inferInstanceAs (Decidable True)
  | db, op :: ops =>
    have := instDecValidSeq (applyOp db op) ops
    inferInstanceAs (Decidable (ValidOp db op ∧ ValidSeq (applyOp db op) ops))

/-! ## Concrete sample data used by witnesses and counterexamples -/

/-- Sample role A at rank 0 of organization 1. -/
def roleA : Role :=
  { id := 1, organizationId := 1, head := true, rank := 0, name := "A",
    description := "", color := "", createdAt := 0, updatedAt := 0 }

/-- Sample role B at rank 1 of organization 1. -/
def roleB : Role :=
  { id := 2, organizationId := 1, head := false, rank := 1, name := "B",
    description := "", color := "", createdAt := 0, updatedAt := 0 }

/-- Sample role C at rank 2 of organization 1. -/
def roleC : Role :=
  { id := 3, organizationId := 1, head := false, rank := 2, name := "C",
    description := "", color := "", createdAt := 0, updatedAt := 0 }

/-- Sample role D at rank 3 of organization 1. -/
def roleD : Role :=
  { id := 4, organizationId := 1, head := false, rank := 3, name := "D",
    description := "", color := "", createdAt := 0, updatedAt := 0 }

/-- The four-role organization `[A@0, B@1, C@2, D@3]` of the spec examples. -/
def dbABCD : Db := [roleA, roleB, roleC, roleD]

/-- A one-role organization. -/
def dbA : Db := [roleA]

/-- A two-role organization `[A@0, B@1]`. -/
def dbAB : Db := [roleA, roleB]

/-- Insert parameters asking for rank 5 in organization 1. -/
def insertRank5 : InsertRoleParams :=
  { organizationId := 1, head := false, rank := 5, name := "X",
    description := "", color := "" }

/-- Insert parameters asking for rank 2 in organization 1. -/
def insertRank2 : InsertRoleParams :=
  { organizationId := 1, head := false, rank := 2, name := "X",
    description := "", color := "" }

/-- Insert parameters asking for rank 0 in organization 1. -/
def insertRank0 : InsertRoleParams :=
  { organizationId := 1, head := false, rank := 0, name := "X",
    description := "", color := "" }

/-- A sample Event Processor capability: upsert the profile and report the
`processed` terminal status. -/
def procUpsert : List String → List String × String :=
  fun es => (es ++ ["profile-upsert"], "processed")

/-- The empty replica state. -/
def s0 : CState := { inbox := [], effects := [] }

/-- A message carrying the `profile.updated` event type. -/
def msgProfileUpdated : KMessage :=
  { key := "k", value := "v", headers := [("event_type", "profile.updated")] }

/-- A message carrying an event type outside the profiles enumeration. -/
def msgMemberCreated : KMessage :=
  { key := "k", value := "v", headers := [("event_type", "member.created")] }

/-- A message without an event-type header. -/
def msgNoHeader : KMessage := { key := "k", value := "v", headers := [] }

/-! ## Helper lemmas -/

/-- With unique role ids, two rows of the table with the same id are equal. -/
theorem role_eq_of_id_eq {db : Db} (hwf : WF db) {a b : Role}
    (ha : a ∈ db) (hb : b ∈ db) (h : a.id = b.id) : a = b :=
  List.inj_on_of_nodup_map hwf ha hb h

/-- The row found by an id lookup has that id. -/
theorem id_of_find? {db : Db} {roleId : Nat} {r : Role}
    (hf : db.find? (fun s => s.id = roleId) = some r) : r.id = roleId := by
  have h := List.find?_some hf
  simpa using h

/-! ## C7: move with the current rank is a no-op -/

/-- C7: calling `UpdateRoleRank` with `newRank` equal to the role's current
rank returns the role unchanged and performs no write: the whole table, hence
every role of the organization with all of its fields, is untouched. -/
theorem c7_move_noop (db : Db) (roleId newRank now : Nat) (r : Role)
    (hf : db.find? (fun s => s.id = roleId) = some r)
    (h : r.rank = newRank) :
    OrgRolesQ.UpdateRoleRank db roleId newRank now = (some r, db) := by
  unfold OrgRolesQ.UpdateRoleRank
  rw [hf]
  simp [h, hf]

/-- Witness for C7 at `[A@0, B@1, C@2, D@3]`: moving B to its own rank 1
returns B and leaves the table untouched. -/
theorem c7_witness : OrgRolesQ.UpdateRoleRank dbABCD 2 1 9 = (some roleB, dbABCD) :=
  c7_move_noop dbABCD 2 1 9 roleB (by decide) (by decide)

/-- With unique ids, the table is a permutation of the row with the looked-up
id together with the rows that survive deleting that id. -/
theorem perm_cons_filter_ne {db : Db} {roleId : Nat} {r : Role}
    (hwf : WF db) (hr : r ∈ db) (hid : r.id = roleId) :
    db.Perm (r :: db.filter (fun s => s.id ≠ roleId)) := by
  induction db with
  | nil => cases hr
  | cons a t ih =>
    have hnd : a.id ∉ t.map Role.id ∧ (t.map Role.id).Nodup := by
      simpa [WF, List.nodup_cons] using hwf
    by_cases hcase : a.id = roleId
    · have hra : r = a := by
        rcases List.mem_cons.mp hr with h | h
        · exact h
        · exact absurd (by
            have hm : r.id ∈ t.map Role.id := List.mem_map_of_mem Role.id h
            rwa [hid, ← hcase] at hm) hnd.1
      have hall : ∀ s ∈ t, s.id ≠ roleId := by
        intro s hs hcon
        exact hnd.1 (by
          have hm : s.id ∈ t.map Role.id := List.mem_map_of_mem Role.id hs
          rwa [hcon, ← hcase] at hm)
      have hft : t.filter (fun s => s.id ≠ roleId) = t := by
        rw [List.filter_eq_self]
        intro s hs
        simpa using hall s hs
      have hfc : (a :: t).filter (fun s => s.id ≠ roleId) = t := by
        have hpa : (decide (a.id ≠ roleId)) = false := by simp [hcase]
        rw [List.filter_cons]
        simp only [hpa]
        simpa using hft
      rw [hfc, hra]
    · have hrt : r ∈ t := by
        rcases List.mem_cons.mp hr with h | h
        · exact absurd (h ▸ hid) hcase
        · exact h
      have hfc : (a :: t).filter (fun s => s.id ≠ roleId) =
          a :: t.filter (fun s => s.id ≠ roleId) := by
        rw [List.filter_cons]
        simp [hcase]
      rw [hfc]
      refine List.Perm.trans ((ih hnd.2 hrt).cons a) ?_
      exact List.Perm.swap r a (t.filter (fun s => s.id ≠ roleId))

/-! ## C8: delete removes the role and closes the gap -/

/-- C8: `DeleteAndShiftRanks` removes the role with the given id and, among
the remaining rows (which keep their relative order), decrements by exactly
one the rank of every role of the same organization whose rank was greater
than the deleted rank, leaving ranks at most the deleted rank untouched. -/
theorem c8_delete_shift (db : Db) (roleId now : Nat) (r : Role)
    (hwf : WF db)
    (hf : db.find? (fun s => s.id = roleId) = some r) :
    (OrgRolesQ.DeleteAndShiftRanks db roleId now).length + 1 = db.length ∧
    (∀ s ∈ OrgRolesQ.DeleteAndShiftRanks db roleId now, s.id ≠ roleId) ∧
    ∀ j : Nat,
      ((OrgRolesQ.DeleteAndShiftRanks db roleId now)[j]?).map Role.id =
        ((db.filter (fun s => s.id ≠ roleId))[j]?).map Role.id ∧
      ((OrgRolesQ.DeleteAndShiftRanks db roleId now)[j]?).map Role.rank =
        ((db.filter (fun s => s.id ≠ roleId))[j]?).map (fun s =>
          if s.organizationId = r.organizationId ∧ r.rank < s.rank then s.rank - 1
          else s.rank) := by
  have hdel : OrgRolesQ.DeleteAndShiftRanks db roleId now =
      (db.filter (fun s => s.id ≠ roleId)).map (fun s =>
        if s.organizationId = r.organizationId ∧ r.rank < s.rank then
          { s with rank := s.rank - 1, updatedAt := now }
        else s) := by
    unfold OrgRolesQ.DeleteAndShiftRanks
    rw [hf]
  have hperm := perm_cons_filter_ne hwf (List.mem_of_find?_eq_some hf) (id_of_find? hf)
  refine ⟨?_, ?_, ?_⟩
  · rw [hdel, List.length_map]
    have := hperm.length_eq
    simpa [Nat.add_comm] using this.symm
  · rw [hdel]
    intro s hs
    rcases List.mem_map.mp hs with ⟨t, ht, rfl⟩
    have hid : t.id ≠ roleId := by simpa using List.of_mem_filter ht
    by_cases hc : t.organizationId = r.organizationId ∧ r.rank < t.rank <;> simp [hc, hid]
  · intro j
    rw [hdel, List.getElem?_map]
    cases hx : (db.filter (fun s => s.id ≠ roleId))[j]? with
    | none => simp
    | some s =>
      constructor
      · by_cases hc : s.organizationId = r.organizationId ∧ r.rank < s.rank <;> simp [hc]
      · by_cases hc : s.organizationId = r.organizationId ∧ r.rank < s.rank <;> simp [hc]

/-- Witness for C8: deleting the rank-2 role C out of `[A@0, B@1, C@2, D@3]`
yields `[A@0, B@1, D@2]` with no gap at 2. -/
theorem c8_witness :
    (OrgRolesQ.DeleteAndShiftRanks dbABCD 3 7).length + 1 = dbABCD.length ∧
    OrgRolesQ.DeleteAndShiftRanks dbABCD 3 7 =
      [roleA, roleB, { roleD with rank := 2, updatedAt := 7 }] :=
  ⟨(c8_delete_shift dbABCD 3 7 roleC (by decide) (by decide)).1, by decide⟩

/-! ## C6: move shifts the intervening roles by one -/

/-- C6: moving a role from rank `old` to `newRank` (with `old` distinct from
`newRank`) returns the moved role at `newRank`, keeps every row's id and
position, and shifts by exactly one toward the vacated slot precisely the
same-organization roles whose rank lies between the two, inclusive of the
destination rank and exclusive of the origin rank; every other role's rank is
unchanged. -/
theorem c6_move_shift (db : Db) (roleId newRank now : Nat) (r : Role)
    (hwf : WF db)
    (hf : db.find? (fun s => s.id = roleId) = some r)
    (hne : r.rank ≠ newRank) :
    ∃ db2,
      OrgRolesQ.UpdateRoleRank db roleId newRank now =
        (some { r with rank := newRank, updatedAt := now }, db2) ∧
      db2.length = db.length ∧
      ∀ j : Nat,
        (db2[j]?).map Role.id = (db[j]?).map Role.id ∧
        (db2[j]?).map Role.rank = (db[j]?).map (fun s =>
          if s.id = roleId then newRank
          else if s.organizationId = r.organizationId ∧ newRank < r.rank ∧
              newRank ≤ s.rank ∧ s.rank < r.rank then s.rank + 1
          else if s.organizationId = r.organizationId ∧ r.rank < newRank ∧
              r.rank < s.rank ∧ s.rank ≤ newRank then s.rank - 1
          else s.rank) := by
  have hrid : r.id = roleId := id_of_find? hf
  have hrmem : r ∈ db := List.mem_of_find?_eq_some hf
  set f : Role → Role := fun s =>
    if s.organizationId = r.organizationId then
      { s with
        rank :=
          if s.id = roleId then newRank
          else if newRank < r.rank ∧ newRank ≤ s.rank ∧ s.rank < r.rank then
            s.rank + 1
          else if r.rank < newRank ∧ r.rank < s.rank ∧ s.rank ≤ newRank then
            s.rank - 1
          else s.rank,
        updatedAt := now }
    else s with hfdef
  have hfid : ∀ s, (f s).id = s.id := by
    intro s
    by_cases hs : s.organizationId = r.organizationId <;> simp [hfdef, hs]
  have hrun : OrgRolesQ.UpdateRoleRank db roleId newRank now =
      ((db.map f).find? (fun s => s.id = roleId), db.map f) := by
    simp only [OrgRolesQ.UpdateRoleRank, hf]
    rw [if_neg hne]
  have hfind : (db.map f).find? (fun s => s.id = roleId) =
      some { r with rank := newRank, updatedAt := now } := by
    rw [List.find?_map]
    have hp : ((fun s => decide (s.id = roleId)) ∘ f) =
        (fun s => decide (s.id = roleId)) := by
      funext s
      simp [Function.comp, hfid s]
    rw [hp, hf]
    have : f r = { r with rank := newRank, updatedAt := now } := by
      simp [hfdef, hrid]
    exact congrArg some this
  refine ⟨db.map f, by rw [hrun, hfind], by simp, ?_⟩
  intro j
  rw [List.getElem?_map]
  cases hx : db[j]? with
  | none => simp
  | some s =>
    have hsmem : s ∈ db := by
      rcases List.getElem?_eq_some.mp hx with ⟨hj, hv⟩
      exact hv ▸ List.getElem_mem hj
    constructor
    · simp [hfid s]
    · simp only [Option.map_some']
      by_cases hsid : s.id = roleId
      · have hsr : s = r := role_eq_of_id_eq hwf hsmem hrmem (by rw [hsid, hrid])
        subst hsr
        simp [hfdef, hsid]
      · by_cases hso : s.organizationId = r.organizationId
        · simp only [hfdef, hso, if_true, if_pos, hsid, if_neg, if_false]
          by_cases h1 : newRank < r.rank ∧ newRank ≤ s.rank ∧ s.rank < r.rank
          · simp [hsid, hso, h1]
          · by_cases h2 : r.rank < newRank ∧ r.rank < s.rank ∧ s.rank ≤ newRank
            · simp [hsid, hso, h1, h2]
            · simp [hsid, hso, h1, h2]
        · have hn1 : ¬(s.organizationId = r.organizationId ∧ newRank < r.rank ∧
              newRank ≤ s.rank ∧ s.rank < r.rank) := by
            intro hcon
            exact hso hcon.1
          have hn2 : ¬(s.organizationId = r.organizationId ∧ r.rank < newRank ∧
              r.rank < s.rank ∧ s.rank ≤ newRank) := by
            intro hcon
            exact hso hcon.1
          simp [hfdef, hso, hsid, hn1, hn2]

/-- Witness for C6: moving D (rank 3) to rank 1 in `[A@0, B@1, C@2, D@3]`
returns D at rank 1. -/
theorem c6_witness :
    (OrgRolesQ.UpdateRoleRank dbABCD 4 1 9).1 =
      some { roleD with rank := 1, updatedAt := 9 } := by
  obtain ⟨db2, heq, h1, h2⟩ :=
    c6_move_shift dbABCD 4 1 9 roleD (by decide) (by decide) (by decide)
  rw [heq]

/-! ## C2: insert performs no rank validation -/

/-- Counterexample to C2 as stated: inserting at rank 5 into a one-role
organization (so 5 is outside `[0, 1]`) raises no validation error — the model
of `Insert` has no error outcome at all, faithfully to the Go function, which
only propagates row-scan errors — and it does write: the table changes, the
returned role carries rank 5, and the organization is left with a rank gap. -/
theorem c2_counterexample :
    ¬ (insertRank5.rank ≤ (rolesOf dbA 1).length) ∧
    (OrgRolesQ.Insert dbA insertRank5 2 1).2 ≠ dbA ∧
    (OrgRolesQ.Insert dbA insertRank5 2 1).1.rank = 5 ∧
    ¬ DenseRanks (OrgRolesQ.Insert dbA insertRank5 2 1).2 1 := by decide

/-- C2 amended: `Insert` performs no validation of `desiredRank` whatsoever.
For every desired rank — in range or not — it succeeds, returning the new role
at exactly the requested rank, appending it to the table, keeping every
existing row's id and position, and shifting up by one exactly the
same-organization roles with rank at least the requested rank. -/
theorem c2_insert_unvalidated (db : Db) (data : InsertRoleParams) (newId now : Nat) :
    (OrgRolesQ.Insert db data newId now).1 =
      { id := newId, organizationId := data.organizationId, head := data.head,
        rank := data.rank, name := data.name, description := data.description,
        color := data.color, createdAt := now, updatedAt := now } ∧
    (OrgRolesQ.Insert db data newId now).2.length = db.length + 1 ∧
    ((OrgRolesQ.Insert db data newId now).2)[db.length]? =
      some (OrgRolesQ.Insert db data newId now).1 ∧
    ∀ j : Nat, j < db.length →
      (((OrgRolesQ.Insert db data newId now).2)[j]?).map Role.id =
        (db[j]?).map Role.id ∧
      (((OrgRolesQ.Insert db data newId now).2)[j]?).map Role.rank =
        (db[j]?).map (fun s =>
          if s.organizationId = data.organizationId ∧ data.rank ≤ s.rank then
            s.rank + 1
          else s.rank) := by
  have hins : OrgRolesQ.Insert db data newId now =
      ({ id := newId, organizationId := data.organizationId, head := data.head,
         rank := data.rank, name := data.name, description := data.description,
         color := data.color, createdAt := now, updatedAt := now },
       db.map (fun s =>
         if s.organizationId = data.organizationId ∧ data.rank ≤ s.rank then
           { s with rank := s.rank + 1, updatedAt := now }
         else s) ++
       [{ id := newId, organizationId := data.organizationId, head := data.head,
          rank := data.rank, name := data.name, description := data.description,
          color := data.color, createdAt := now, updatedAt := now }]) := rfl
  refine ⟨by rw [hins], by rw [hins]; simp, ?_, ?_⟩
  · rw [hins]
    rw [List.getElem?_append]
    simp
  · intro j hj
    rw [hins]
    rw [List.getElem?_append]
    simp only [List.length_map]
    rw [if_pos hj]
    rw [List.getElem?_map]
    cases hx : db[j]? with
    | none => simp
    | some s =>
      constructor
      · by_cases hc : s.organizationId = data.organizationId ∧ data.rank ≤ s.rank <;>
          simp [hc]
      · by_cases hc : s.organizationId = data.organizationId ∧ data.rank ≤ s.rank <;>
          simp [hc]

/-- Witness for the amended C2: in the rank-5 insertion into the one-role
organization, the pre-existing role at rank 0 keeps rank 0 (it is not
shifted, because its rank is below the requested rank). -/
theorem c2_witness :
    (((OrgRolesQ.Insert dbA insertRank5 2 1).2)[0]?).map Role.rank = some 0 := by
  have h := ((c2_insert_unvalidated dbA insertRank5 2 1).2.2.2 0 (by decide)).2
  rw [h]
  decide

/-! ## C9: only known event types resolve a handler -/

/-- C9: the handler resolution of `Profile.Run` dispatches exactly the
messages whose `event_type` header is present and equal to `profile.updated`;
a missing header or any other event type resolves no handler, so the message
is skipped without error. -/
theorem c9_event_dispatch (m : KMessage) :
    resolveProfileHandler m =
      if headerValue m "event_type" = some ProfileUpdatedEvent then
        some ProfileHandler.profileUpdated
      else none := by
  unfold resolveProfileHandler
  cases h : headerValue m "event_type" with
  | none => simp
  | some et =>
    by_cases he : et = ProfileUpdatedEvent
    · simp [he]
    · simp [he]

/-! ## C3: inbox status after a successful commit -/

/-- Counterexample to C3 as stated: when the status-update call fails, the
consumer closure logs the error and still returns nil, so the transaction
commits with the processor's domain effect durable while the inbox event still
reports `pending` — the effect and the status update are not durable together.
-/
theorem c3_counterexample :
    (profileUpdatedTx s0 1 "k" true false procUpsert).2 = true ∧
    (profileUpdatedTx s0 1 "k" true false procUpsert).1.effects =
      ["profile-upsert"] ∧
    (profileUpdatedTx s0 1 "k" true false procUpsert).1.inbox =
      [{ id := 1, key := "k", status := pendingStatus }] := by decide

/-- C3 amended: provided the status-update write itself succeeds, a committed
per-message transaction leaves the recorded inbox event at exactly the status
returned by the Event Processor, with the domain effect durable in the same
commit; the `pending` window exists only when the status update fails. -/
theorem c3_amended_status_terminal (s : CState) (mid : Nat) (k : String)
    (proc : List String → List String × String) (es : List String) (st : String)
    (hproc : proc s.effects = (es, st)) :
    (profileUpdatedTx s mid k true true proc).2 = true ∧
    (profileUpdatedTx s mid k true true proc).1.effects = es ∧
    (∃ e ∈ (profileUpdatedTx s mid k true true proc).1.inbox, e.id = mid) ∧
    ∀ e ∈ (profileUpdatedTx s mid k true true proc).1.inbox,
      e.id = mid → e.status = st := by
  have hcid : (createInboxEvent s.inbox mid k).1.id = mid := by
    unfold createInboxEvent
    cases hfe : s.inbox.find? (fun e => e.id = mid) with
    | none => simp
    | some e =>
      have h := List.find?_some hfe
      simpa using h
  have hcmem : (createInboxEvent s.inbox mid k).1 ∈ (createInboxEvent s.inbox mid k).2 := by
    unfold createInboxEvent
    cases hfe : s.inbox.find? (fun e => e.id = mid) with
    | none => simp
    | some e =>
      simpa using List.mem_of_find?_eq_some hfe
  refine ⟨by simp [profileUpdatedTx, hproc], by simp [profileUpdatedTx, hproc], ?_, ?_⟩
  · simp only [profileUpdatedTx, hproc]
    norm_num
    refine ⟨_, List.mem_map_of_mem _ hcmem, ?_⟩
    simp [hcid]
  · simp only [profileUpdatedTx, hproc]
    norm_num
    intro e he hid
    rcases List.mem_map.mp he with ⟨x, hx, rfl⟩
    by_cases hxm : x.id = (createInboxEvent s.inbox mid k).1.id
    · simp [hxm]
    · simp [hxm] at hid
      rw [hcid] at hxm
      exact absurd hid hxm

/-- Witness for the amended C3: a fresh message whose processor upserts the
profile and reports `processed` commits with that terminal status recorded. -/
theorem c3_witness :
    (profileUpdatedTx s0 1 "k" true true procUpsert).2 = true ∧
    ∀ e ∈ (profileUpdatedTx s0 1 "k" true true procUpsert).1.inbox,
      e.id = 1 → e.status = "processed" := by
  have h := c3_amended_status_terminal s0 1 "k" procUpsert ["profile-upsert"]
    "processed" (by decide)
  exact ⟨h.1, h.2.2.2⟩

/-! ## Validation-loop inversion lemmas -/

/-- Inversion of one successful validation step. -/
theorem validateOrder_cons_ok {ids : List Nat} {o n rid rk : Nat}
    {rest used used2 : List (Nat × Nat)}
    (h : OrgRolesQ.validateOrder ids o n ((rid, rk) :: rest) used = .ok used2) :
    rk < n ∧ rid ∈ ids ∧
      ((∃ u, used.find? (fun e => e.1 = rk) = some u ∧ u.2 = rid ∧
          OrgRolesQ.validateOrder ids o n rest used = .ok used2) ∨
       (used.find? (fun e => e.1 = rk) = none ∧
          OrgRolesQ.validateOrder ids o n rest ((rk, rid) :: used) = .ok used2)) := by
  cases hfind : used.find? (fun e => e.1 = rk) with
  | some u =>
    simp only [OrgRolesQ.validateOrder, hfind] at h
    by_cases h1 : n ≤ rk
    · rw [if_pos h1] at h
      exact absurd h (by simp)
    · rw [if_neg h1] at h
      by_cases h2 : rid ∈ ids
      · rw [if_pos h2] at h
        refine ⟨Nat.lt_of_not_le h1, h2, ?_⟩
        by_cases h3 : u.2 ≠ rid
        · rw [if_pos h3] at h
          exact absurd h (by simp)
        · rw [if_neg h3] at h
          exact Or.inl ⟨u, rfl, Decidable.not_not.mp (fun hc => h3 hc), h⟩
      · rw [if_neg h2] at h
        exact absurd h (by simp)
  | none =>
    simp only [OrgRolesQ.validateOrder, hfind] at h
    by_cases h1 : n ≤ rk
    · rw [if_pos h1] at h
      exact absurd h (by simp)
    · rw [if_neg h1] at h
      by_cases h2 : rid ∈ ids
      · rw [if_pos h2] at h
        exact ⟨Nat.lt_of_not_le h1, h2, Or.inr ⟨rfl, h⟩⟩
      · rw [if_neg h2] at h
        exact absurd h (by simp)

/-- Inversion of one failing validation step. -/
theorem validateOrder_cons_error {ids : List Nat} {o n rid rk : Nat}
    {rest used : List (Nat × Nat)} {err : RankErr}
    (h : OrgRolesQ.validateOrder ids o n ((rid, rk) :: rest) used = .error err) :
    (n ≤ rk ∧ err = .outOfRange rk n) ∨
    (rk < n ∧ rid ∉ ids ∧ err = .notInOrg rid o) ∨
    (rk < n ∧ rid ∈ ids ∧ ∃ u, used.find? (fun e => e.1 = rk) = some u ∧
      u.2 ≠ rid ∧ err = .duplicateRank rk u.2 rid) ∨
    (rk < n ∧ rid ∈ ids ∧ ∃ u, used.find? (fun e => e.1 = rk) = some u ∧
      u.2 = rid ∧ OrgRolesQ.validateOrder ids o n rest used = .error err) ∨
    (rk < n ∧ rid ∈ ids ∧ used.find? (fun e => e.1 = rk) = none ∧
      OrgRolesQ.validateOrder ids o n rest ((rk, rid) :: used) = .error err) := by
  cases hfind : used.find? (fun e => e.1 = rk) with
  | some u =>
    simp only [OrgRolesQ.validateOrder, hfind] at h
    by_cases h1 : n ≤ rk
    · rw [if_pos h1] at h
      exact Or.inl ⟨h1, by simpa using h.symm⟩
    · rw [if_neg h1] at h
      by_cases h2 : rid ∈ ids
      · rw [if_pos h2] at h
        by_cases h3 : u.2 ≠ rid
        · rw [if_pos h3] at h
          exact Or.inr (Or.inr (Or.inl ⟨Nat.lt_of_not_le h1, h2, u, rfl, h3,
            by simpa using h.symm⟩))
        · rw [if_neg h3] at h
          exact Or.inr (Or.inr (Or.inr (Or.inl ⟨Nat.lt_of_not_le h1, h2, u, rfl,
            Decidable.not_not.mp (fun hc => h3 hc), h⟩)))
      · rw [if_neg h2] at h
        exact Or.inr (Or.inl ⟨Nat.lt_of_not_le h1, h2, by simpa using h.symm⟩)
  | none =>
    simp only [OrgRolesQ.validateOrder, hfind] at h
    by_cases h1 : n ≤ rk
    · rw [if_pos h1] at h
      exact Or.inl ⟨h1, by simpa using h.symm⟩
    · rw [if_neg h1] at h
      by_cases h2 : rid ∈ ids
      · rw [if_pos h2] at h
        exact Or.inr (Or.inr (Or.inr (Or.inr ⟨Nat.lt_of_not_le h1, h2, rfl, h⟩)))
      · rw [if_neg h2] at h
        exact Or.inr (Or.inl ⟨Nat.lt_of_not_le h1, h2, by simpa using h.symm⟩)

/-- Every entry of a successfully validated assignment targets a rank below
`n` and references a role of the organization. -/
theorem validateOrder_ok_entries {ids : List Nat} {o n : Nat} :
    ∀ {order used used2 : List (Nat × Nat)},
    OrgRolesQ.validateOrder ids o n order used = .ok used2 →
    ∀ e ∈ order, e.2 < n ∧ e.1 ∈ ids := by
  intro order
  induction order with
  | nil =>
    intro used used2 h e he
    cases he
  | cons a rest ih =>
    intro used used2 h e he
    rcases a with ⟨rid, rk⟩
    obtain ⟨hrk, hrid, hrec⟩ := validateOrder_cons_ok h
    rcases List.mem_cons.mp he with rfl | hmem
    · exact ⟨hrk, hrid⟩
    · rcases hrec with ⟨u, _, _, h2⟩ | ⟨_, h2⟩
      · exact ih h2 e hmem
      · exact ih h2 e hmem

/-- After a successful validation no two distinct roles of the assignment
target the same rank (also relative to the accumulated `usedRank` map). -/
theorem validateOrder_ok_functional {ids : List Nat} {o n : Nat} :
    ∀ {order used used2 : List (Nat × Nat)},
    (used.map Prod.fst).Nodup →
    OrgRolesQ.validateOrder ids o n order used = .ok used2 →
    (∀ e ∈ order, ∀ u ∈ used, e.2 = u.1 → e.1 = u.2) ∧
    (∀ e1 ∈ order, ∀ e2 ∈ order, e1.2 = e2.2 → e1.1 = e2.1) := by
  intro order
  induction order with
  | nil =>
    intro used used2 hnd h
    exact ⟨fun e he => absurd he (List.not_mem_nil e), fun e1 he1 => absurd he1 (List.not_mem_nil e1)⟩
  | cons a rest ih =>
    intro used used2 hnd h
    rcases a with ⟨rid, rk⟩
    obtain ⟨hrk, hrid, hbranch⟩ := validateOrder_cons_ok h
    rcases hbranch with ⟨u0, hfind, hu0, hrec⟩ | ⟨hfind, hrec⟩
    · have hu0mem : u0 ∈ used := List.mem_of_find?_eq_some hfind
      have hu0rk : u0.1 = rk := by
        have hp := List.find?_some hfind
        simpa using hp
      obtain ⟨ih1, ih2⟩ := ih hnd hrec
      constructor
      · intro e he u hu heq
        rcases List.mem_cons.mp he with rfl | hmem
        · have huu0 : u = u0 :=
            List.inj_on_of_nodup_map hnd hu hu0mem (by rw [hu0rk, ← heq])
          rw [huu0, hu0]
        · exact ih1 e hmem u hu heq
      · intro e1 he1 e2 he2 heq
        rcases List.mem_cons.mp he1 with rfl | hmem1 <;>
          rcases List.mem_cons.mp he2 with rfl | hmem2
        · rfl
        · have := ih1 e2 hmem2 u0 hu0mem (by rw [hu0rk, ← heq])
          rw [this, hu0]
        · have := ih1 e1 hmem1 u0 hu0mem (by rw [hu0rk, heq])
          rw [this, hu0]
        · exact ih2 e1 hmem1 e2 hmem2 heq
    · have hrknotin : rk ∉ used.map Prod.fst := by
        intro hcon
        rcases List.mem_map.mp hcon with ⟨u, hu, hfst⟩
        have := List.find?_eq_none.mp hfind u hu
        simp [hfst] at this
      have hnd' : (((rk, rid) :: used).map Prod.fst).Nodup := by
        simp only [List.map_cons, List.nodup_cons]
        exact ⟨hrknotin, hnd⟩
      obtain ⟨ih1, ih2⟩ := ih hnd' hrec
      constructor
      · intro e he u hu heq
        rcases List.mem_cons.mp he with rfl | hmem
        · exact absurd (heq ▸ List.mem_map_of_mem Prod.fst hu) (by
            intro hcon
            exact hrknotin (by simpa using hcon))
        · exact ih1 e hmem u (List.mem_cons_of_mem _ hu) heq
      · intro e1 he1 e2 he2 heq
        rcases List.mem_cons.mp he1 with rfl | hmem1 <;>
          rcases List.mem_cons.mp he2 with rfl | hmem2
        · rfl
        · have h2 := ih1 e2 hmem2 (rk, rid) (List.mem_cons_self _ _) (by simpa using heq.symm)
          simp at h2
          rw [h2]
        · have h2 := ih1 e1 hmem1 (rk, rid) (List.mem_cons_self _ _) (by simpa using heq)
          simpa using h2
        · exact ih2 e1 hmem1 e2 hmem2 heq

/-- When every entry is in range and references an organization member, a
validation failure can only be the duplicate-rank conflict, and it reports two
distinct role identities both of which target the conflicting rank. -/
theorem validateOrder_error_of_entries {ids : List Nat} {o n : Nat} :
    ∀ {order used : List (Nat × Nat)} {err : RankErr},
    (∀ e ∈ order, e.2 < n ∧ e.1 ∈ ids) →
    OrgRolesQ.validateOrder ids o n order used = .error err →
    ∃ rk a b, err = .duplicateRank rk a b ∧ a ≠ b ∧ (b, rk) ∈ order ∧
      ((rk, a) ∈ used ∨ (a, rk) ∈ order) := by
  intro order
  induction order with
  | nil =>
    intro used err hent h
    exact absurd h (by simp [OrgRolesQ.validateOrder])
  | cons a rest ih =>
    intro used err hent h
    rcases a with ⟨rid, rk⟩
    have hhead := hent (rid, rk) (List.mem_cons_self _ _)
    rcases validateOrder_cons_error h with
      ⟨h1, _⟩ | ⟨_, h2, _⟩ | ⟨_, _, u, hfind, hne, herr⟩ |
      ⟨_, _, u, hfind, hu, hrec⟩ | ⟨_, _, hfind, hrec⟩
    · exact absurd hhead.1 (Nat.not_lt_of_le h1)
    · exact absurd hhead.2 h2
    · have hu0rk : u.1 = rk := by
        have hp := List.find?_some hfind
        simpa using hp
      have humem : (rk, u.2) ∈ used := by
        have : u = (rk, u.2) := by
          rw [← hu0rk]
        rw [← this]
        exact List.mem_of_find?_eq_some hfind
      exact ⟨rk, u.2, rid, herr, hne, List.mem_cons_self _ _, Or.inl humem⟩
    · obtain ⟨rk2, a2, b2, herr2, hab2, hb2, hdisj⟩ :=
        ih (fun e he => hent e (List.mem_cons_of_mem _ he)) hrec
      refine ⟨rk2, a2, b2, herr2, hab2, List.mem_cons_of_mem _ hb2, ?_⟩
      rcases hdisj with hu2 | ho2
      · exact Or.inl hu2
      · exact Or.inr (List.mem_cons_of_mem _ ho2)
    · obtain ⟨rk2, a2, b2, herr2, hab2, hb2, hdisj⟩ :=
        ih (fun e he => hent e (List.mem_cons_of_mem _ he)) hrec
      refine ⟨rk2, a2, b2, herr2, hab2, List.mem_cons_of_mem _ hb2, ?_⟩
      rcases hdisj with hu2 | ho2
      · rcases List.mem_cons.mp hu2 with heq2 | hu3
        · refine Or.inr (List.mem_cons.mpr (Or.inl ?_))
          have h1 : rk2 = rk := congrArg Prod.fst heq2
          have h2 : a2 = rid := congrArg Prod.snd heq2
          rw [h1, h2]
        · exact Or.inl hu3
      · exact Or.inr (List.mem_cons_of_mem _ ho2)

/-! ## C4: duplicate target ranks abort the bulk reorder -/

/-- C4: a partial assignment (role ids pairwise distinct, all in range and in
the organization) that maps two distinct roles to the same target rank makes
`UpdateRolesRanks` fail with the duplicate-rank conflict error, which reports
two distinct role identities both mapped to the conflicting rank, and the
table is returned untouched — nothing is written. -/
theorem c4_bulk_conflict (db : Db) (o now : Nat) (order : List (Nat × Nat))
    (hne : (OrgRolesQ.selectByOrg db o).isEmpty = false)
    (hr : ∀ e ∈ order, e.2 < (OrgRolesQ.selectByOrg db o).length)
    (hm : ∀ e ∈ order, e.1 ∈ (OrgRolesQ.selectByOrg db o).map Role.id)
    (hdup : ∃ e1 ∈ order, ∃ e2 ∈ order, e1.1 ≠ e2.1 ∧ e1.2 = e2.2) :
    ∃ rk a b, a ≠ b ∧ (a, rk) ∈ order ∧ (b, rk) ∈ order ∧
      OrgRolesQ.UpdateRolesRanks db o order now =
        (.error (.duplicateRank rk a b), db) := by
  cases hval : OrgRolesQ.validateOrder ((OrgRolesQ.selectByOrg db o).map Role.id) o
      (OrgRolesQ.selectByOrg db o).length order [] with
  | ok used2 =>
    exfalso
    obtain ⟨e1, he1, e2, he2, hne12, heq⟩ := hdup
    have hfun := (validateOrder_ok_functional (by simp) hval).2
    exact hne12 (hfun e1 he1 e2 he2 heq)
  | error err =>
    obtain ⟨rk, a, b, herr, hab, hbord, hdisj⟩ :=
      validateOrder_error_of_entries (fun e he => ⟨hr e he, hm e he⟩) hval
    have haord : (a, rk) ∈ order := by
      rcases hdisj with hu | ho
      · exact absurd hu (by simp)
      · exact ho
    refine ⟨rk, a, b, hab, haord, hbord, ?_⟩
    subst herr
    simp [OrgRolesQ.UpdateRolesRanks, hne, hval]

/-- Witness for C4: in `[A@0, B@1]` the assignment mapping both A and B to
rank 0 fails with the conflict error reporting both identities, and the table
is untouched. -/
theorem c4_witness :
    ∃ rk a b, a ≠ b ∧ (a, rk) ∈ [(1, 0), (2, 0)] ∧ (b, rk) ∈ [(1, 0), (2, 0)] ∧
      OrgRolesQ.UpdateRolesRanks dbAB 1 [(1, 0), (2, 0)] 5 =
        (.error (.duplicateRank rk a b), dbAB) :=
  c4_bulk_conflict dbAB 1 5 [(1, 0), (2, 0)] (by decide) (by decide) (by decide)
    (by decide)

/-! ## Structure of the accumulated usedRank map and of the fill loop -/

/-- With pairwise-distinct role keys every validated entry is prepended to the
`usedRank` accumulator: the final accumulator is exactly the reversed, swapped
assignment. -/
theorem validateOrder_ok_used {ids : List Nat} {o n : Nat} :
    ∀ {order used used2 : List (Nat × Nat)},
    (order.map Prod.fst).Nodup →
    (∀ k ∈ order.map Prod.fst, k ∉ used.map Prod.snd) →
    OrgRolesQ.validateOrder ids o n order used = .ok used2 →
    used2 = (order.map (fun e => (e.2, e.1))).reverse ++ used := by
  intro order
  induction order with
  | nil =>
    intro used used2 hk hdisj h
    simp only [OrgRolesQ.validateOrder] at h
    simpa using h.symm
  | cons a rest ih =>
    intro used used2 hk hdisj h
    rcases a with ⟨rid, rk⟩
    obtain ⟨hrk, hrid, hbranch⟩ := validateOrder_cons_ok h
    rcases hbranch with ⟨u0, hfind, hu0, hrec⟩ | ⟨hfind, hrec⟩
    · exfalso
      have hmem : rid ∈ used.map Prod.snd := by
        rw [← hu0]
        exact List.mem_map_of_mem Prod.snd (List.mem_of_find?_eq_some hfind)
      exact hdisj rid (by simp) hmem
    · have hk2 : (rest.map Prod.fst).Nodup ∧ rid ∉ rest.map Prod.fst := by
        have hx := hk
        simp only [List.map_cons, List.nodup_cons] at hx
        exact ⟨hx.2, hx.1⟩
      have hdisj2 : ∀ k ∈ rest.map Prod.fst, k ∉ ((rk, rid) :: used).map Prod.snd := by
        intro k hkmem
        simp only [List.map_cons, List.mem_cons]
        intro hcon
        rcases hcon with hcon | hcon
        · exact hk2.2 (hcon ▸ hkmem)
        · exact hdisj k (List.mem_cons_of_mem _ hkmem) hcon
      have hrec2 := ih hk2.1 hdisj2 hrec
      rw [hrec2]
      simp

/-- A successful validation with a rank-Nodup accumulator keeps the ranks of
the accumulator pairwise distinct. -/
theorem validateOrder_ok_ranks_nodup {ids : List Nat} {o n : Nat} :
    ∀ {order used used2 : List (Nat × Nat)},
    (used.map Prod.fst).Nodup →
    OrgRolesQ.validateOrder ids o n order used = .ok used2 →
    (used2.map Prod.fst).Nodup := by
  intro order
  induction order with
  | nil =>
    intro used used2 hnd h
    simp only [OrgRolesQ.validateOrder] at h
    have hx : used = used2 := by simpa using h
    rw [← hx]
    exact hnd
  | cons a rest ih =>
    intro used used2 hnd h
    rcases a with ⟨rid, rk⟩
    obtain ⟨hrk, hrid, hbranch⟩ := validateOrder_cons_ok h
    rcases hbranch with ⟨u0, hfind, hu0, hrec⟩ | ⟨hfind, hrec⟩
    · exact ih hnd hrec
    · have hfree : rk ∉ used.map Prod.fst := by
        intro hcon
        rcases List.mem_map.mp hcon with ⟨u, hu, hfst⟩
        have hx := List.find?_eq_none.mp hfind u hu
        simp [hfst] at hx
      exact ih (by simp only [List.map_cons, List.nodup_cons]; exact ⟨hfree, hnd⟩) hrec

/-- Every entry of the final accumulator of a successful validation has an
in-range rank and an organization-member role id. -/
theorem validateOrder_ok_used_entries {ids : List Nat} {o n : Nat} :
    ∀ {order used used2 : List (Nat × Nat)},
    (∀ u ∈ used, u.1 < n ∧ u.2 ∈ ids) →
    OrgRolesQ.validateOrder ids o n order used = .ok used2 →
    ∀ u ∈ used2, u.1 < n ∧ u.2 ∈ ids := by
  intro order
  induction order with
  | nil =>
    intro used used2 hin h
    simp only [OrgRolesQ.validateOrder] at h
    have hx : used = used2 := by simpa using h
    rw [← hx]
    exact hin
  | cons a rest ih =>
    intro used used2 hin h
    rcases a with ⟨rid, rk⟩
    obtain ⟨hrk, hrid, hbranch⟩ := validateOrder_cons_ok h
    rcases hbranch with ⟨u0, hfind, hu0, hrec⟩ | ⟨hfind, hrec⟩
    · exact ih hin hrec
    · refine ih ?_ hrec
      intro u hu
      rcases List.mem_cons.mp hu with rfl | hu2
      · exact ⟨hrk, hrid⟩
      · exact hin u hu2

/-- In a list of pairs with pairwise-distinct first components, looking up the
first component of a member pair finds exactly that pair. -/
theorem find?_rank_unique {l : List (Nat × Nat)} {u : Nat × Nat}
    (hnd : (l.map Prod.fst).Nodup) (hm : u ∈ l) :
    l.find? (fun e => e.1 = u.1) = some u := by
  induction l with
  | nil => cases hm
  | cons a t ih =>
    have hnd2 : a.1 ∉ t.map Prod.fst ∧ (t.map Prod.fst).Nodup := by
      simpa [List.nodup_cons] using hnd
    by_cases hau : a.1 = u.1
    · have hua : a = u := by
        rcases List.mem_cons.mp hm with h | h
        · exact h.symm
        · exact absurd (by
            have hmm : u.1 ∈ t.map Prod.fst := List.mem_map_of_mem Prod.fst h
            rwa [← hau] at hmm) hnd2.1
      rw [List.find?_cons_of_pos _ (by simp [hau])]
      rw [hua]
    · have hut : u ∈ t := by
        rcases List.mem_cons.mp hm with h | h
        · exact absurd (congrArg Prod.fst h.symm) hau
        · exact h
      rw [List.find?_cons_of_neg _ (by simp [hau])]
      exact ih hnd2.2 hut

/-- The fill loop produces exactly `fuel` entries. -/
theorem fillPositions_length (used : List (Nat × Nat)) :
    ∀ (fuel i : Nat) (rest : List Nat),
    (OrgRolesQ.fillPositions used i fuel rest).length = fuel := by
  intro fuel
  induction fuel with
  | zero => intro i rest; rfl
  | succ fuel ih =>
    intro i rest
    cases hfind : used.find? (fun e => e.1 = i) with
    | some e =>
      simp only [OrgRolesQ.fillPositions, hfind, List.length_cons]
      rw [ih]
    | none =>
      cases rest with
      | nil =>
        simp only [OrgRolesQ.fillPositions, hfind, List.length_cons]
        rw [ih]
      | cons x xs =>
        simp only [OrgRolesQ.fillPositions, hfind, List.length_cons]
        rw [ih]

/-- A rank explicitly present in the `usedRank` map is filled with exactly the
role the map assigns to it. -/
theorem fillPositions_getElem_assigned (used : List (Nat × Nat)) :
    ∀ (fuel i j : Nat) (rest : List Nat) (u : Nat × Nat),
    used.find? (fun e => e.1 = j) = some u →
    i ≤ j → j < i + fuel →
    (OrgRolesQ.fillPositions used i fuel rest)[j - i]? = some u.2 := by
  intro fuel
  induction fuel with
  | zero => intro i j rest u hfind hij hlt; omega
  | succ fuel ih =>
    intro i j rest u hfind hij hlt
    by_cases hji : j = i
    · subst hji
      simp only [OrgRolesQ.fillPositions, hfind]
      simp
    · have hij2 : i + 1 ≤ j := by omega
      have hsub : j - i = (j - (i + 1)) + 1 := by omega
      cases hfind2 : used.find? (fun e => e.1 = i) with
      | some e =>
        simp only [OrgRolesQ.fillPositions, hfind2]
        rw [hsub, List.getElem?_cons_succ]
        exact ih (i + 1) j rest u hfind hij2 (by omega)
      | none =>
        cases rest with
        | nil =>
          simp only [OrgRolesQ.fillPositions, hfind2]
          rw [hsub, List.getElem?_cons_succ]
          exact ih (i + 1) j [] u hfind hij2 (by omega)
        | cons x xs =>
          simp only [OrgRolesQ.fillPositions, hfind2]
          rw [hsub, List.getElem?_cons_succ]
          exact ih (i + 1) j xs u hfind hij2 (by omega)

/-- Splitting the window filter of a pair list at its unique rank-`i` entry. -/
theorem filter_window_split {l : List (Nat × Nat)} {i : Nat} {u : Nat × Nat}
    (hnd : (l.map Prod.fst).Nodup) (hu : u ∈ l) (hui : u.1 = i) :
    (l.filter (fun x => i ≤ x.1)).Perm (u :: l.filter (fun x => i + 1 ≤ x.1)) := by
  induction l with
  | nil => cases hu
  | cons a t ih =>
    have hnd2 : a.1 ∉ t.map Prod.fst ∧ (t.map Prod.fst).Nodup := by
      simpa [List.nodup_cons] using hnd
    by_cases hai : a.1 = i
    · have hua : u = a := by
        rcases List.mem_cons.mp hu with h | h
        · exact h
        · exact absurd (by
            have hm : u.1 ∈ t.map Prod.fst := List.mem_map_of_mem Prod.fst h
            rwa [hui, ← hai] at hm) hnd2.1
      have hkeep : (decide (i ≤ a.1)) = true := by simp [hai]
      have hdrop : (decide (i + 1 ≤ a.1)) = false := by simp [hai]
      have htf : t.filter (fun x => i ≤ x.1) = t.filter (fun x => i + 1 ≤ x.1) := by
        apply List.filter_congr
        intro x hx
        have hxne : x.1 ≠ i := by
          intro hcon
          exact hnd2.1 (by rw [hai, ← hcon]; exact List.mem_map_of_mem Prod.fst hx)
        rw [decide_eq_decide]
        omega
      rw [List.filter_cons, List.filter_cons]
      simp only [hkeep, hdrop, if_true, if_false, Bool.false_eq_true]
      rw [htf, hua]
    · have hut : u ∈ t := by
        rcases List.mem_cons.mp hu with h | h
        · exact absurd (h ▸ hui) hai
        · exact h
      by_cases hilea : i ≤ a.1
      · have hile2 : (decide (i ≤ a.1)) = true := by simp [hilea]
        have hile3 : (decide (i + 1 ≤ a.1)) = true := by
          simp only [decide_eq_true_eq]
          omega
        rw [List.filter_cons, List.filter_cons]
        simp only [hile2, hile3, if_true]
        refine List.Perm.trans ((ih hnd2.2 hut).cons a) ?_
        exact List.Perm.swap u a _
      · have hd1 : (decide (i ≤ a.1)) = false := by simp [hilea]
        have hd2 : (decide (i + 1 ≤ a.1)) = false := by
          simp only [decide_eq_false_iff_not]
          omega
        rw [List.filter_cons, List.filter_cons]
        simp only [hd1, hd2, if_false, Bool.false_eq_true]
        exact ih hnd2.2 hut

/-- The fill loop emits, in some order, exactly the explicitly assigned roles
of the window together with the whole queue of unassigned roles. -/
theorem fillPositions_perm (used : List (Nat × Nat)) :
    ∀ (fuel i : Nat) (rest : List Nat),
    (used.map Prod.fst).Nodup →
    (∀ e ∈ used, e.1 < i + fuel) →
    (used.filter (fun e => i ≤ e.1)).length + rest.length = fuel →
    (OrgRolesQ.fillPositions used i fuel rest).Perm
      ((used.filter (fun e => i ≤ e.1)).map Prod.snd ++ rest) := by
  intro fuel
  induction fuel with
  | zero =>
    intro i rest hnd hub hlen
    have h1 : (used.filter (fun e => i ≤ e.1)).length = 0 := by omega
    have h2 : rest.length = 0 := by omega
    rw [List.length_eq_zero] at h1 h2
    rw [h1, h2]
    simp [OrgRolesQ.fillPositions]
  | succ fuel ih =>
    intro i rest hnd hub hlen
    cases hfind : used.find? (fun e => e.1 = i) with
    | some u =>
      have hu1 : u.1 = i := by simpa using List.find?_some hfind
      have humem := List.mem_of_find?_eq_some hfind
      have hsplit := filter_window_split hnd humem hu1
      have hlen1 : (used.filter (fun e => i ≤ e.1)).length =
          (used.filter (fun e => i + 1 ≤ e.1)).length + 1 := by
        have hx := hsplit.length_eq
        simpa using hx
      have ihp := ih (i + 1) rest hnd
        (fun e he => by have := hub e he; omega) (by omega)
      simp only [OrgRolesQ.fillPositions, hfind]
      have h2 : ((used.filter (fun e => i ≤ e.1)).map Prod.snd ++ rest).Perm
          (u.2 :: ((used.filter (fun e => i + 1 ≤ e.1)).map Prod.snd ++ rest)) := by
        refine List.Perm.trans (List.Perm.append_right rest (hsplit.map Prod.snd)) ?_
        simp
      exact ((ihp.cons u.2).trans h2.symm)
    | none =>
      have hfeq : used.filter (fun e => i ≤ e.1) =
          used.filter (fun e => i + 1 ≤ e.1) := by
        apply List.filter_congr
        intro x hx
        have hxne : x.1 ≠ i := by
          have hz := List.find?_eq_none.mp hfind x hx
          simpa using hz
        rw [decide_eq_decide]
        omega
      have hbound : (used.filter (fun e => i + 1 ≤ e.1)).length ≤ fuel := by
        have hsub : ((used.filter (fun e => i + 1 ≤ e.1)).map Prod.fst) ⊆
            List.range' (i + 1) fuel := by
          intro x hx
          rcases List.mem_map.mp hx with ⟨e, he, rfl⟩
          have h1 : i + 1 ≤ e.1 := by simpa using List.of_mem_filter he
          have h2 : e.1 < i + (fuel + 1) := hub e (List.mem_of_mem_filter he)
          rw [List.mem_range'_1]
          omega
        have hndf : ((used.filter (fun e => i + 1 ≤ e.1)).map Prod.fst).Nodup :=
          List.Nodup.sublist (List.Sublist.map Prod.fst (List.filter_sublist _)) hnd
        have hple := (List.subperm_of_subset hndf hsub).length_le
        simpa using hple
      cases rest with
      | nil =>
        exfalso
        rw [hfeq] at hlen
        simp at hlen
        omega
      | cons x xs =>
        have ihp := ih (i + 1) xs hnd (fun e he => by have := hub e he; omega)
          (by rw [hfeq] at hlen; simp at hlen ⊢; omega)
        simp only [OrgRolesQ.fillPositions, hfind]
        rw [hfeq]
        refine List.Perm.trans (ihp.cons x) ?_
        exact List.perm_middle.symm

/-- Filtering the filled target to the unassigned roles returns exactly the
queue of unassigned roles, in their original relative order. -/
theorem fillPositions_filter_unassigned (used : List (Nat × Nat)) (K : List Nat) :
    ∀ (fuel i : Nat) (rest : List Nat),
    (used.map Prod.fst).Nodup →
    (∀ e ∈ used, e.1 < i + fuel) →
    (used.filter (fun e => i ≤ e.1)).length + rest.length = fuel →
    (∀ e ∈ used, e.2 ∈ K) →
    (∀ x ∈ rest, x ∉ K) →
    (OrgRolesQ.fillPositions used i fuel rest).filter (fun x => x ∉ K) = rest := by
  intro fuel
  induction fuel with
  | zero =>
    intro i rest hnd hub hlen hK hrest
    have h2 : rest.length = 0 := by omega
    rw [List.length_eq_zero] at h2
    rw [h2]
    simp [OrgRolesQ.fillPositions]
  | succ fuel ih =>
    intro i rest hnd hub hlen hK hrest
    cases hfind : used.find? (fun e => e.1 = i) with
    | some u =>
      have hu1 : u.1 = i := by simpa using List.find?_some hfind
      have humem := List.mem_of_find?_eq_some hfind
      have hsplit := filter_window_split hnd humem hu1
      have hlen1 : (used.filter (fun e => i ≤ e.1)).length =
          (used.filter (fun e => i + 1 ≤ e.1)).length + 1 := by
        have hx := hsplit.length_eq
        simpa using hx
      have hdrop : (decide (u.2 ∉ K)) = false := by simp [hK u humem]
      simp only [OrgRolesQ.fillPositions, hfind, List.filter_cons, hdrop,
        Bool.false_eq_true, if_false]
      exact ih (i + 1) rest hnd (fun e he => by have := hub e he; omega)
        (by omega) hK hrest
    | none =>
      have hfeq : used.filter (fun e => i ≤ e.1) =
          used.filter (fun e => i + 1 ≤ e.1) := by
        apply List.filter_congr
        intro x hx
        have hxne : x.1 ≠ i := by
          have hz := List.find?_eq_none.mp hfind x hx
          simpa using hz
        rw [decide_eq_decide]
        omega
      have hbound : (used.filter (fun e => i + 1 ≤ e.1)).length ≤ fuel := by
        have hsub : ((used.filter (fun e => i + 1 ≤ e.1)).map Prod.fst) ⊆
            List.range' (i + 1) fuel := by
          intro x hx
          rcases List.mem_map.mp hx with ⟨e, he, rfl⟩
          have h1 : i + 1 ≤ e.1 := by simpa using List.of_mem_filter he
          have h2 : e.1 < i + (fuel + 1) := hub e (List.mem_of_mem_filter he)
          rw [List.mem_range'_1]
          omega
        have hndf : ((used.filter (fun e => i + 1 ≤ e.1)).map Prod.fst).Nodup :=
          List.Nodup.sublist (List.Sublist.map Prod.fst (List.filter_sublist _)) hnd
        have hple := (List.subperm_of_subset hndf hsub).length_le
        simpa using hple
      cases rest with
      | nil =>
        exfalso
        rw [hfeq] at hlen
        simp at hlen
        omega
      | cons x xs =>
        have hkeep : (decide (x ∉ K)) = true := by
          simp [hrest x (List.mem_cons_self _ _)]
        simp only [OrgRolesQ.fillPositions, hfind, List.filter_cons, hkeep, if_true]
        rw [ih (i + 1) xs hnd (fun e he => by have := hub e he; omega)
          (by rw [hfeq] at hlen; simp at hlen ⊢; omega) hK
          (fun y hy => hrest y (List.mem_cons_of_mem _ hy))]

/-- The first component of every diff entry is an id of the target list. -/
theorem changedPairs_fst_mem :
    ∀ (rs : List Role) (ts : List Nat) (i : Nat) (c : Nat × Nat),
    c ∈ OrgRolesQ.changedPairs rs ts i → c.1 ∈ ts := by
  intro rs
  induction rs with
  | nil =>
    intro ts i c hc
    cases ts with
    | nil => simp [OrgRolesQ.changedPairs] at hc
    | cons t ts2 => simp [OrgRolesQ.changedPairs] at hc
  | cons r rs2 ih =>
    intro ts i c hc
    cases ts with
    | nil => simp [OrgRolesQ.changedPairs] at hc
    | cons t ts2 =>
      simp only [OrgRolesQ.changedPairs] at hc
      by_cases hne : r.id ≠ t
      · rw [if_pos hne] at hc
        rcases List.mem_cons.mp hc with rfl | hc2
        · exact List.mem_cons_self _ _
        · exact List.mem_cons_of_mem _ (ih ts2 (i + 1) c hc2)
      · rw [if_neg hne] at hc
        exact List.mem_cons_of_mem _ (ih ts2 (i + 1) c hc)

/-- Membership in the ordered per-organization selection. -/
theorem mem_selectByOrg {db : Db} {o : Nat} {s : Role} :
    s ∈ OrgRolesQ.selectByOrg db o ↔ (s ∈ db ∧ s.organizationId = o) := by
  unfold OrgRolesQ.selectByOrg
  rw [(List.perm_insertionSort _ _).mem_iff]
  simp [List.mem_filter]

/-- With unique primary keys the ids of one organization's selection are
pairwise distinct. -/
theorem selectByOrg_ids_nodup {db : Db} {o : Nat} (hwf : WF db) :
    ((OrgRolesQ.selectByOrg db o).map Role.id).Nodup := by
  have hperm : ((OrgRolesQ.selectByOrg db o).map Role.id).Perm
      ((db.filter (fun s => s.organizationId = o)).map Role.id) :=
    (List.perm_insertionSort _ _).map Role.id
  have hnd : ((db.filter (fun s => s.organizationId = o)).map Role.id).Nodup :=
    List.Nodup.sublist (List.Sublist.map Role.id (List.filter_sublist _)) hwf
  exact hperm.nodup_iff.mpr hnd

/-- The unassigned-role test of the fill queue is exactly non-membership of
the assignment's key set. -/
theorem find?_isNone_key (order : List (Nat × Nat)) (x : Nat) :
    ((order.find? (fun e => e.1 = x)).isNone) = decide (x ∉ order.map Prod.fst) := by
  cases hf : order.find? (fun e => e.1 = x) with
  | some e =>
    have h1 : e.1 = x := by simpa using List.find?_some hf
    have h2 : x ∈ order.map Prod.fst :=
      h1 ▸ List.mem_map_of_mem Prod.fst (List.mem_of_find?_eq_some hf)
    simp [h2]
  | none =>
    have h1 : x ∉ order.map Prod.fst := by
      intro hcon
      rcases List.mem_map.mp hcon with ⟨e, he, hfst⟩
      have hz := List.find?_eq_none.mp hf e he
      simp [hfst] at hz
    simp [h1]

/-- Counting the unassigned roles: the fill queue holds exactly the ids that
the assignment does not mention. -/
theorem rest_length {order : List (Nat × Nat)} {idsl : List Nat}
    (hk : (order.map Prod.fst).Nodup)
    (hnd : idsl.Nodup)
    (hsub : ∀ e ∈ order, e.1 ∈ idsl) :
    (idsl.filter (fun x => (order.find? (fun e => e.1 = x)).isNone)).length +
      order.length = idsl.length := by
  have hre : idsl.filter (fun x => (order.find? (fun e => e.1 = x)).isNone) =
      idsl.filter (fun x => x ∉ order.map Prod.fst) := by
    apply List.filter_congr
    intro x hx
    exact find?_isNone_key order x
  have hpartition := List.filter_append_perm
    (fun x => decide (x ∈ order.map Prod.fst)) idsl
  have hinK : (idsl.filter (fun x => x ∈ order.map Prod.fst)).Perm (order.map Prod.fst) := by
    apply List.Subperm.antisymm
    · apply List.subperm_of_subset
      · exact List.Nodup.sublist (List.filter_sublist _) hnd
      · intro x hx
        have := List.of_mem_filter hx
        simpa using this
    · apply List.subperm_of_subset hk
      intro x hx
      rcases List.mem_map.mp hx with ⟨e, he, rfl⟩
      rw [List.mem_filter]
      exact ⟨hsub e he, by simpa using hx⟩
  have hnot : idsl.filter (fun x => !decide (x ∈ order.map Prod.fst)) =
      idsl.filter (fun x => x ∉ order.map Prod.fst) := by
    apply List.filter_congr
    intro x hx
    simp
  have hlen := hpartition.length_eq
  rw [List.length_append] at hlen
  rw [hre]
  rw [← hnot]
  have hKlen : (idsl.filter (fun x => decide (x ∈ order.map Prod.fst))).length =
      order.length := by
    have := hinK.length_eq
    simpa using this
  omega

/-- Each diff entry resolves (by id within the organization) to an updated
role carrying exactly that id: the RETURNING set is the changed set. -/
theorem filterMap_out_ids (db : Db) (o now : Nat) :
    ∀ (changed : List (Nat × Nat)),
    (∀ c ∈ changed, ∃ s ∈ db, s.id = c.1 ∧ s.organizationId = o) →
    ((changed.filterMap (fun c =>
      (db.find? (fun s => s.id = c.1 ∧ s.organizationId = o)).map
        (fun s => { s with rank := c.2, updatedAt := now }))).map Role.id) =
      changed.map Prod.fst := by
  intro changed
  induction changed with
  | nil => intro h; rfl
  | cons c cs ih =>
    intro h
    have hex := h c (List.mem_cons_self _ _)
    have hfs : ∃ s, db.find? (fun s => s.id = c.1 ∧ s.organizationId = o) = some s := by
      rcases hex with ⟨s, hs, hid, horg⟩
      have hsome : (db.find? (fun s => s.id = c.1 ∧ s.organizationId = o)).isSome := by
        rw [List.find?_isSome]
        exact ⟨s, hs, by simp [hid, horg]⟩
      exact Option.isSome_iff_exists.mp hsome
    rcases hfs with ⟨s, hsf⟩
    have hsid : s.id = c.1 := by
      have hp := List.find?_some hsf
      simp at hp
      exact hp.1
    rw [List.filterMap_cons, hsf]
    simp only [Option.map_some']
    simp only [List.map_cons]
    rw [ih (fun x hx => h x (List.mem_cons_of_mem _ hx))]
    simp [hsid]

/-! ## C10: bulk reorder returns the full list only when nothing moved -/

/-- C10: for a valid partial assignment (validation succeeds; keys are map
keys, hence pairwise distinct), `UpdateRolesRanks` returns the organization's
complete role list in rank order — and leaves the table untouched — exactly
when the diff is empty; when at least one rank changes it returns precisely
the roles whose ranks were rewritten (the diff entries), not the complete
role set. -/
theorem c10_bulk_returns_changed (db : Db) (o now : Nat)
    (order used : List (Nat × Nat))
    (hwf : WF db)
    (hk : (order.map Prod.fst).Nodup)
    (hne : (OrgRolesQ.selectByOrg db o).isEmpty = false)
    (hval : OrgRolesQ.validateOrder ((OrgRolesQ.selectByOrg db o).map Role.id) o
      (OrgRolesQ.selectByOrg db o).length order [] = .ok used) :
    (OrgRolesQ.changedPairs (OrgRolesQ.selectByOrg db o)
        (OrgRolesQ.fillPositions used 0 (OrgRolesQ.selectByOrg db o).length
          (((OrgRolesQ.selectByOrg db o).map Role.id).filter
            (fun x => (order.find? (fun e => e.1 = x)).isNone))) 0 = [] →
      OrgRolesQ.UpdateRolesRanks db o order now =
        (.ok (OrgRolesQ.selectByOrg db o), db)) ∧
    (OrgRolesQ.changedPairs (OrgRolesQ.selectByOrg db o)
        (OrgRolesQ.fillPositions used 0 (OrgRolesQ.selectByOrg db o).length
          (((OrgRolesQ.selectByOrg db o).map Role.id).filter
            (fun x => (order.find? (fun e => e.1 = x)).isNone))) 0 ≠ [] →
      ∃ out, (OrgRolesQ.UpdateRolesRanks db o order now).1 = .ok out ∧
        out.map Role.id =
          (OrgRolesQ.changedPairs (OrgRolesQ.selectByOrg db o)
            (OrgRolesQ.fillPositions used 0 (OrgRolesQ.selectByOrg db o).length
              (((OrgRolesQ.selectByOrg db o).map Role.id).filter
                (fun x => (order.find? (fun e => e.1 = x)).isNone))) 0).map
            Prod.fst) := by
  constructor
  · intro hch
    simp [OrgRolesQ.UpdateRolesRanks, hne, hval, hch]
  · intro hch
    have hche : (OrgRolesQ.changedPairs (OrgRolesQ.selectByOrg db o)
        (OrgRolesQ.fillPositions used 0 (OrgRolesQ.selectByOrg db o).length
          (((OrgRolesQ.selectByOrg db o).map Role.id).filter
            (fun x => (order.find? (fun e => e.1 = x)).isNone))) 0).isEmpty =
        false := by
      cases hx : (OrgRolesQ.changedPairs (OrgRolesQ.selectByOrg db o)
          (OrgRolesQ.fillPositions used 0 (OrgRolesQ.selectByOrg db o).length
            (((OrgRolesQ.selectByOrg db o).map Role.id).filter
              (fun x => (order.find? (fun e => e.1 = x)).isNone))) 0).isEmpty
      · rfl
      · exact absurd (List.isEmpty_iff.mp hx) hch
    have hrun : (OrgRolesQ.UpdateRolesRanks db o order now).1 =
        .ok ((OrgRolesQ.changedPairs (OrgRolesQ.selectByOrg db o)
            (OrgRolesQ.fillPositions used 0 (OrgRolesQ.selectByOrg db o).length
              (((OrgRolesQ.selectByOrg db o).map Role.id).filter
                (fun x => (order.find? (fun e => e.1 = x)).isNone))) 0).filterMap
          (fun c =>
            (db.find? (fun s => s.id = c.1 ∧ s.organizationId = o)).map
              (fun s => { s with rank := c.2, updatedAt := now }))) := by
      simp [OrgRolesQ.UpdateRolesRanks, hne, hval, hche]
    refine ⟨_, hrun, ?_⟩
    apply filterMap_out_ids
    intro c hc
    have hund : (used.map Prod.fst).Nodup :=
      validateOrder_ok_ranks_nodup (by simp) hval
    have hent := validateOrder_ok_used_entries
      (fun u hu => absurd hu (List.not_mem_nil u)) hval
    have hu_struct := validateOrder_ok_used hk (by simp) hval
    have hulen : used.length = order.length := by
      rw [hu_struct]
      simp
    have hidnd := selectByOrg_ids_nodup (o := o) hwf
    have hkeysub : ∀ e ∈ order, e.1 ∈ (OrgRolesQ.selectByOrg db o).map Role.id :=
      fun e he => (validateOrder_ok_entries hval e he).2
    have hrl := rest_length hk hidnd hkeysub
    have hfl : used.filter (fun e => 0 ≤ e.1) = used := by
      rw [List.filter_eq_self]
      intro u hu
      simp
    have hlenf : (used.filter (fun e => 0 ≤ e.1)).length +
        ((((OrgRolesQ.selectByOrg db o).map Role.id)).filter
          (fun x => (order.find? (fun e => e.1 = x)).isNone)).length =
        (OrgRolesQ.selectByOrg db o).length := by
      rw [hfl, hulen]
      have hlm : ((OrgRolesQ.selectByOrg db o).map Role.id).length =
          (OrgRolesQ.selectByOrg db o).length := List.length_map _ _
      omega
    have htperm := fillPositions_perm used (OrgRolesQ.selectByOrg db o).length 0
      ((((OrgRolesQ.selectByOrg db o).map Role.id)).filter
        (fun x => (order.find? (fun e => e.1 = x)).isNone))
      hund (fun e he => by have := (hent e he).1; omega) hlenf
    rw [hfl] at htperm
    have hcmem : c.1 ∈ OrgRolesQ.fillPositions used 0
        (OrgRolesQ.selectByOrg db o).length
        ((((OrgRolesQ.selectByOrg db o).map Role.id)).filter
          (fun x => (order.find? (fun e => e.1 = x)).isNone)) :=
      changedPairs_fst_mem _ _ _ c hc
    have hcin := (htperm.mem_iff).mp hcmem
    rcases List.mem_append.mp hcin with hcu | hcr
    · rcases List.mem_map.mp hcu with ⟨u, hu, hcu2⟩
      have hin2 := (hent u hu).2
      rw [hcu2] at hin2
      rcases List.mem_map.mp hin2 with ⟨s, hsroles, hsid⟩
      have hsdb := mem_selectByOrg.mp hsroles
      exact ⟨s, hsdb.1, hsid, hsdb.2⟩
    · have hcid : c.1 ∈ (OrgRolesQ.selectByOrg db o).map Role.id :=
        List.mem_of_mem_filter hcr
      rcases List.mem_map.mp hcid with ⟨s, hsroles, hsid⟩
      have hsdb := mem_selectByOrg.mp hsroles
      exact ⟨s, hsdb.1, hsid, hsdb.2⟩

/-- Witness for C10: with `[A@0, B@1, C@2, D@3]`, the no-op assignment
sending A to its current rank 0 returns the full rank-ordered list and writes
nothing, while the assignment sending B to rank 2 returns exactly the two
rewritten roles (C and B), not the complete set. -/
theorem c10_witness :
    (OrgRolesQ.UpdateRolesRanks dbABCD 1 [(1, 0)] 5 =
      (.ok (OrgRolesQ.selectByOrg dbABCD 1), dbABCD)) ∧
    ∃ out, (OrgRolesQ.UpdateRolesRanks dbABCD 1 [(2, 2)] 5).1 = .ok out ∧
      out.map Role.id = [3, 2] := by
  constructor
  · exact (c10_bulk_returns_changed dbABCD 1 5 [(1, 0)] [(0, 1)] (by decide)
      (by decide) (by decide) (by decide)).1 (by decide)
  · obtain ⟨out, h1, h2⟩ := (c10_bulk_returns_changed dbABCD 1 5 [(2, 2)] [(2, 2)]
      (by decide) (by decide) (by decide) (by decide)).2 (by decide)
    exact ⟨out, h1, by rw [h2]; decide⟩

/-! ## C5: the target permutation is built by stable fill -/

/-- C5: for a valid partial assignment, the target permutation places every
explicitly assigned role at exactly its requested rank, and the remaining
ranks, read in increasing order, hold exactly the unassigned roles in their
prior relative order; in particular `[A@0, B@1, C@2, D@3]` with the
assignment sending D to rank 0 reorders to `[D@0, A@1, B@2, C@3]`. -/
theorem c5_bulk_stable_fill (db : Db) (o : Nat) (order used : List (Nat × Nat))
    (hwf : WF db)
    (hk : (order.map Prod.fst).Nodup)
    (hval : OrgRolesQ.validateOrder ((OrgRolesQ.selectByOrg db o).map Role.id) o
      (OrgRolesQ.selectByOrg db o).length order [] = .ok used) :
    (∀ e ∈ order,
      (OrgRolesQ.fillPositions used 0 (OrgRolesQ.selectByOrg db o).length
        (((OrgRolesQ.selectByOrg db o).map Role.id).filter
          (fun x => (order.find? (fun e2 => e2.1 = x)).isNone)))[e.2]? =
        some e.1) ∧
    ((OrgRolesQ.fillPositions used 0 (OrgRolesQ.selectByOrg db o).length
        (((OrgRolesQ.selectByOrg db o).map Role.id).filter
          (fun x => (order.find? (fun e2 => e2.1 = x)).isNone))).filter
        (fun x => x ∉ order.map Prod.fst) =
      ((OrgRolesQ.selectByOrg db o).map Role.id).filter
        (fun x => x ∉ order.map Prod.fst)) ∧
    OrgRolesQ.UpdateRolesRanks dbABCD 1 [(4, 0)] 5 =
      (.ok [{ roleD with rank := 0, updatedAt := 5 },
            { roleA with rank := 1, updatedAt := 5 },
            { roleB with rank := 2, updatedAt := 5 },
            { roleC with rank := 3, updatedAt := 5 }],
       [{ roleA with rank := 1, updatedAt := 5 },
        { roleB with rank := 2, updatedAt := 5 },
        { roleC with rank := 3, updatedAt := 5 },
        { roleD with rank := 0, updatedAt := 5 }]) := by
  have hu_struct := validateOrder_ok_used hk (by simp) hval
  have hund : (used.map Prod.fst).Nodup :=
    validateOrder_ok_ranks_nodup (by simp) hval
  have hent := validateOrder_ok_used_entries
    (fun u hu => absurd hu (List.not_mem_nil u)) hval
  have hulen : used.length = order.length := by
    rw [hu_struct]
    simp
  refine ⟨?_, ?_, by decide⟩
  · intro e he
    have hmem : ((e.2, e.1) : Nat × Nat) ∈ used := by
      rw [hu_struct]
      simp only [List.append_nil, List.mem_reverse, List.mem_map]
      exact ⟨e, he, rfl⟩
    have hfind := find?_rank_unique hund hmem
    have hrk : e.2 < (OrgRolesQ.selectByOrg db o).length :=
      (validateOrder_ok_entries hval e he).1
    have hres := fillPositions_getElem_assigned used
      (OrgRolesQ.selectByOrg db o).length 0 e.2
      (((OrgRolesQ.selectByOrg db o).map Role.id).filter
        (fun x => (order.find? (fun e2 => e2.1 = x)).isNone))
      (e.2, e.1) hfind (Nat.zero_le _) (by omega)
    simpa using hres
  · have hkeysub : ∀ e ∈ order, e.1 ∈ (OrgRolesQ.selectByOrg db o).map Role.id :=
      fun e he => (validateOrder_ok_entries hval e he).2
    have hidnd := selectByOrg_ids_nodup (o := o) hwf
    have hrl := rest_length hk hidnd hkeysub
    have hfl : used.filter (fun e => 0 ≤ e.1) = used := by
      rw [List.filter_eq_self]
      intro u hu
      simp
    have hlenf : (used.filter (fun e => 0 ≤ e.1)).length +
        ((((OrgRolesQ.selectByOrg db o).map Role.id)).filter
          (fun x => (order.find? (fun e2 => e2.1 = x)).isNone)).length =
        (OrgRolesQ.selectByOrg db o).length := by
      rw [hfl, hulen]
      have hlm : ((OrgRolesQ.selectByOrg db o).map Role.id).length =
          (OrgRolesQ.selectByOrg db o).length := List.length_map _ _
      omega
    have hK : ∀ u ∈ used, u.2 ∈ order.map Prod.fst := by
      intro u hu
      rw [hu_struct] at hu
      simp only [List.append_nil, List.mem_reverse, List.mem_map] at hu
      rcases hu with ⟨e, he, rfl⟩
      exact List.mem_map_of_mem Prod.fst he
    have hrest : ∀ x ∈ (((OrgRolesQ.selectByOrg db o).map Role.id)).filter
        (fun x => (order.find? (fun e2 => e2.1 = x)).isNone),
        x ∉ order.map Prod.fst := by
      intro x hx
      have hp := List.of_mem_filter hx
      rw [find?_isNone_key] at hp
      simpa using hp
    have heq := fillPositions_filter_unassigned used (order.map Prod.fst)
      (OrgRolesQ.selectByOrg db o).length 0
      ((((OrgRolesQ.selectByOrg db o).map Role.id)).filter
        (fun x => (order.find? (fun e2 => e2.1 = x)).isNone))
      hund (fun u hu => by have := (hent u hu).1; omega) hlenf hK hrest
    rw [heq]
    apply List.filter_congr
    intro x hx
    rw [← find?_isNone_key]

/-- Witness for C5: the concrete stable-fill example — reordering
`[A@0, B@1, C@2, D@3]` with the partial assignment sending D to rank 0
rewrites every role and yields `[D@0, A@1, B@2, C@3]`. -/
theorem c5_witness :
    OrgRolesQ.UpdateRolesRanks dbABCD 1 [(4, 0)] 5 =
      (.ok [{ roleD with rank := 0, updatedAt := 5 },
            { roleA with rank := 1, updatedAt := 5 },
            { roleB with rank := 2, updatedAt := 5 },
            { roleC with rank := 3, updatedAt := 5 }],
       [{ roleA with rank := 1, updatedAt := 5 },
        { roleB with rank := 2, updatedAt := 5 },
        { roleC with rank := 3, updatedAt := 5 },
        { roleD with rank := 0, updatedAt := 5 }]) :=
  (c5_bulk_stable_fill dbABCD 1 [(4, 0)] [(0, 4)] (by decide) (by decide)
    (by decide)).2.2

/-! ## Dense-rank arithmetic on `List.range` -/

/-- Shifting the ranks at or above the insertion point up by one and adding
the inserted rank is a permutation of the next dense range. -/
theorem rangeShiftUp (r : Nat) : ∀ (n : Nat), r ≤ n →
    (((List.range n).map (fun k => if r ≤ k then k + 1 else k)) ++ [r]).Perm
      (List.range (n + 1)) := by
  intro n
  induction n with
  | zero =>
    intro hr
    have hr0 : r = 0 := Nat.le_zero.mp hr
    subst hr0
    decide
  | succ n ih =>
    intro hr
    by_cases hrn : r ≤ n
    · have hstep := ih hrn
      rw [List.range_succ, List.map_append]
      have hmap1 : ([n].map (fun k => if r ≤ k then k + 1 else k)) = [n + 1] := by
        simp [hrn]
      rw [hmap1]
      have hswap : (((List.range n).map (fun k => if r ≤ k then k + 1 else k) ++
          [n + 1]) ++ [r]).Perm
          (((List.range n).map (fun k => if r ≤ k then k + 1 else k) ++ [r]) ++
          [n + 1]) := by
        rw [List.append_assoc, List.append_assoc]
        refine List.Perm.append_left _ ?_
        exact List.Perm.swap r (n + 1) []
      refine hswap.trans ?_
      refine List.Perm.trans (List.Perm.append_right [n + 1] hstep) ?_
      rw [← List.range_succ]
    · have hrn2 : r = n + 1 := by omega
      have hid : (List.range (n + 1)).map (fun k => if r ≤ k then k + 1 else k) =
          List.range (n + 1) := by
        refine (List.map_congr_left ?_).trans (List.map_id _)
        intro k hk
        have hklt : k < n + 1 := List.mem_range.mp hk
        have : ¬ r ≤ k := by omega
        simp [this]
      rw [hid, hrn2, ← List.range_succ]

/-- Removing the deleted rank and shifting the ranks above it down by one is a
permutation of the previous dense range. -/
theorem rangeShiftDown (d : Nat) : ∀ (n : Nat), d < n →
    (((List.range n).erase d).map (fun k => if d < k then k - 1 else k)).Perm
      (List.range (n - 1)) := by
  intro n
  induction n with
  | zero => intro h; omega
  | succ n ih =>
    intro hd
    by_cases hdn : d < n
    · have hmem : d ∈ List.range n := List.mem_range.mpr hdn
      rw [List.range_succ, List.erase_append_left _ hmem, List.map_append]
      have hmap1 : ([n].map (fun k => if d < k then k - 1 else k)) = [n - 1] := by
        simp [hdn]
      rw [hmap1]
      have hstep := ih hdn
      refine List.Perm.trans (List.Perm.append_right [n - 1] hstep) ?_
      have hn1 : n - 1 + 1 = n := by omega
      have h5 : List.range (n - 1 + 1) = List.range (n + 1 - 1) :=
        congrArg List.range (by omega)
      rw [← h5, List.range_succ]
    · have hdn2 : d = n := by omega
      subst hdn2
      rw [List.range_succ]
      rw [List.erase_append_right _ (by simp)]
      simp only [List.erase_cons_head, List.append_nil]
      have hid : (List.range d).map (fun k => if d < k then k - 1 else k) =
          List.range d := by
        refine (List.map_congr_left ?_).trans (List.map_id _)
        intro k hk
        have hklt : k < d := List.mem_range.mp hk
        have : ¬ d < k := by omega
        simp [this]
      rw [hid]
      simp

/-- A single-pass move of the rank `d` to the rank `e`, shifting the ranks in
between by one toward the vacated slot, permutes the dense range onto itself.
-/
theorem rangeMove (d e n : Nat) (hd : d < n) (he : e < n) (hne : d ≠ e) :
    (e :: ((List.range n).erase d).map (fun k =>
      if e < d ∧ e ≤ k ∧ k < d then k + 1
      else if d < e ∧ d < k ∧ k ≤ e then k - 1
      else k)).Perm (List.range n) := by
  have hpt : ((List.range n).erase d).map (fun k =>
      if e < d ∧ e ≤ k ∧ k < d then k + 1
      else if d < e ∧ d < k ∧ k ≤ e then k - 1
      else k) =
      ((List.range n).erase d).map
        ((fun j => if e ≤ j then j + 1 else j) ∘ (fun k => if d < k then k - 1 else k)) := by
    apply List.map_congr_left
    intro k hk
    have hkd : k ≠ d := ((List.nodup_range n).mem_erase_iff.mp hk).1
    simp only [Function.comp]
    split_ifs <;> omega
  rw [hpt, List.comp_map]
  have h1 := rangeShiftDown d n hd
  have h2 := h1.map (fun j => if e ≤ j then j + 1 else j)
  refine List.Perm.trans (h2.cons e) ?_
  have h3 := rangeShiftUp e (n - 1) (by omega)
  have h4 := (List.perm_append_singleton e
    ((List.range (n - 1)).map (fun k => if e ≤ k then k + 1 else k))).symm
  refine List.Perm.trans h4 ?_
  have hn1 : n - 1 + 1 = n := by omega
  rw [← hn1]
  exact h3

/-! ## Frame lemmas for the per-organization role view -/

/-- Organizations without roles are trivially dense, so the bounded invariant
extends to every organization id. -/
theorem denseAll_iff {db : Db} : DenseAll db ↔ ∀ o, DenseRanks db o := by
  constructor
  · intro h o
    by_cases ho : o ∈ db.map Role.organizationId
    · exact h o ho
    · have hempty : rolesOf db o = [] := by
        unfold rolesOf
        rw [List.filter_eq_nil]
        intro s hs
        simp only [decide_eq_true_eq]
        intro hcon
        exact ho (hcon ▸ List.mem_map_of_mem Role.organizationId hs)
      unfold DenseRanks ranksOf
      rw [hempty]
      simp
  · intro h o _
    exact h o

/-- An organization-preserving row transformation commutes with the
per-organization view. -/
theorem rolesOf_map_pres {db : Db} {f : Role → Role}
    (hf : ∀ s, (f s).organizationId = s.organizationId) (o : Nat) :
    rolesOf (db.map f) o = (rolesOf db o).map f := by
  unfold rolesOf
  rw [List.filter_map]
  congr 1
  apply List.filter_congr
  intro s _
  simp [Function.comp, hf s]

/-- The per-organization view distributes over table concatenation. -/
theorem rolesOf_append {l l2 : Db} {o : Nat} :
    rolesOf (l ++ l2) o = rolesOf l o ++ rolesOf l2 o :=
  List.filter_append _ _

/-- Every row of the per-organization view belongs to that organization. -/
theorem rolesOf_org {db : Db} {o : Nat} {s : Role} (hs : s ∈ rolesOf db o) :
    s.organizationId = o := by
  have := List.of_mem_filter hs
  simpa using this

/-- The ids of one organization's view are unique when the table's are. -/
theorem rolesOf_wf {db : Db} (hwf : WF db) (o : Nat) : WF (rolesOf db o) :=
  List.Nodup.sublist (List.Sublist.map Role.id (List.filter_sublist _)) hwf

/-- A member rank of a dense organization is below the role count. -/
theorem rank_lt_of_dense {db : Db} {o : Nat} {s : Role}
    (hd : DenseRanks db o) (hs : s ∈ rolesOf db o) :
    s.rank < (rolesOf db o).length := by
  have hmem : s.rank ∈ ranksOf db o := List.mem_map_of_mem Role.rank hs
  have := hd.mem_iff.mp hmem
  exact List.mem_range.mp this

/-! ## Preservation of density by each rank operation -/

/-- Insert preserves well-formedness and density of every organization when
the desired rank is at most the current count and the id is fresh. -/
theorem insert_preserves (db : Db) (data : InsertRoleParams) (newId now : Nat)
    (hwf : WF db) (hd : DenseAll db)
    (hrk : data.rank ≤ (rolesOf db data.organizationId).length)
    (hfresh : newId ∉ db.map Role.id) :
    DenseAll (OrgRolesQ.Insert db data newId now).2 ∧
    WF (OrgRolesQ.Insert db data newId now).2 := by
  have hins : (OrgRolesQ.Insert db data newId now).2 =
      db.map (fun s =>
        if s.organizationId = data.organizationId ∧ data.rank ≤ s.rank then
          { s with rank := s.rank + 1, updatedAt := now }
        else s) ++
      [OrgRolesQ.insertedRole data newId now] := rfl
  have hforg : ∀ s : Role, ((fun s =>
      if s.organizationId = data.organizationId ∧ data.rank ≤ s.rank then
        { s with rank := s.rank + 1, updatedAt := now }
      else s) s).organizationId = s.organizationId := by
    intro s
    by_cases hc : s.organizationId = data.organizationId ∧ data.rank ≤ s.rank <;>
      simp [hc]
  have hfid : ∀ s : Role, ((fun s =>
      if s.organizationId = data.organizationId ∧ data.rank ≤ s.rank then
        { s with rank := s.rank + 1, updatedAt := now }
      else s) s).id = s.id := by
    intro s
    by_cases hc : s.organizationId = data.organizationId ∧ data.rank ≤ s.rank <;>
      simp [hc]
  constructor
  · rw [denseAll_iff]
    intro o
    have hd0 := denseAll_iff.mp hd
    rw [hins]
    by_cases ho : o = data.organizationId
    · rw [ho]
      unfold DenseRanks ranksOf
      rw [rolesOf_append, rolesOf_map_pres hforg]
      have hnr : rolesOf [OrgRolesQ.insertedRole data newId now]
          data.organizationId = [OrgRolesQ.insertedRole data newId now] := by
        simp [rolesOf, OrgRolesQ.insertedRole]
      rw [hnr]
      rw [List.map_append, List.map_map]
      have hrankmap : (rolesOf db data.organizationId).map (Role.rank ∘ (fun s =>
          if s.organizationId = data.organizationId ∧ data.rank ≤ s.rank then
            { s with rank := s.rank + 1, updatedAt := now }
          else s)) =
          (ranksOf db data.organizationId).map
            (fun k => if data.rank ≤ k then k + 1 else k) := by
        unfold ranksOf
        rw [List.map_map]
        apply List.map_congr_left
        intro s hs
        have hso := rolesOf_org hs
        simp only [Function.comp]
        by_cases hc : data.rank ≤ s.rank
        · simp [hso, hc]
        · simp [hso, hc]
      rw [hrankmap]
      have hperm := (hd0 data.organizationId).map
        (fun k => if data.rank ≤ k then k + 1 else k)
      have hfin := rangeShiftUp data.rank (rolesOf db data.organizationId).length hrk
      have hchain := (List.Perm.append_right [data.rank] hperm).trans hfin
      simp only [List.map_cons, List.map_nil, List.length_append, List.length_map,
        List.length_cons, List.length_nil]
      simpa [OrgRolesQ.insertedRole] using hchain
    · unfold DenseRanks ranksOf
      rw [rolesOf_append, rolesOf_map_pres hforg]
      have hnr : rolesOf [OrgRolesQ.insertedRole data newId now] o = [] := by
        unfold rolesOf
        rw [List.filter_eq_nil]
        intro a ha
        rw [List.mem_singleton] at ha
        subst ha
        simp only [decide_eq_true_eq, OrgRolesQ.insertedRole]
        intro hcon
        exact ho hcon.symm
      rw [hnr, List.append_nil]
      have hidmap : (rolesOf db o).map (fun s =>
          if s.organizationId = data.organizationId ∧ data.rank ≤ s.rank then
            { s with rank := s.rank + 1, updatedAt := now }
          else s) = rolesOf db o := by
        refine (List.map_congr_left ?_).trans (List.map_id _)
        intro s hs
        have hso := rolesOf_org hs
        have hno : ¬ (s.organizationId = data.organizationId ∧
            data.rank ≤ s.rank) := by
          intro hcon
          exact ho ((hso ▸ hcon.1 : o = data.organizationId))
        simp [hno]
      rw [hidmap]
      exact hd0 o
  · rw [hins]
    unfold WF
    rw [List.map_append, List.map_map]
    have hids : db.map (Role.id ∘ (fun s =>
        if s.organizationId = data.organizationId ∧ data.rank ≤ s.rank then
          { s with rank := s.rank + 1, updatedAt := now }
        else s)) = db.map Role.id := by
      apply List.map_congr_left
      intro s _
      simp only [Function.comp]
      exact hfid s
    rw [hids]
    have hsingle : ([OrgRolesQ.insertedRole data newId now].map Role.id) =
        [newId] := rfl
    rw [hsingle]
    refine ((List.perm_append_singleton newId (db.map Role.id)).nodup_iff).mpr ?_
    exact List.nodup_cons.mpr ⟨hfresh, hwf⟩

/-- Delete preserves well-formedness and density of every organization. -/
theorem delete_preserves (db : Db) (roleId now : Nat)
    (hwf : WF db) (hd : DenseAll db) :
    DenseAll (OrgRolesQ.DeleteAndShiftRanks db roleId now) ∧
    WF (OrgRolesQ.DeleteAndShiftRanks db roleId now) := by
  cases hfind : db.find? (fun s => s.id = roleId) with
  | none =>
    have heq : OrgRolesQ.DeleteAndShiftRanks db roleId now = db := by
      simp only [OrgRolesQ.DeleteAndShiftRanks, hfind]
    rw [heq]
    exact ⟨hd, hwf⟩
  | some del =>
    have heq : OrgRolesQ.DeleteAndShiftRanks db roleId now =
        (db.filter (fun s => s.id ≠ roleId)).map (fun s =>
          if s.organizationId = del.organizationId ∧ del.rank < s.rank then
            { s with rank := s.rank - 1, updatedAt := now }
          else s) := by
      simp only [OrgRolesQ.DeleteAndShiftRanks, hfind]
    have hforg : ∀ s : Role, ((fun s =>
        if s.organizationId = del.organizationId ∧ del.rank < s.rank then
          { s with rank := s.rank - 1, updatedAt := now }
        else s) s).organizationId = s.organizationId := by
      intro s
      by_cases hc : s.organizationId = del.organizationId ∧ del.rank < s.rank <;>
        simp [hc]
    have hfid : ∀ s : Role, ((fun s =>
        if s.organizationId = del.organizationId ∧ del.rank < s.rank then
          { s with rank := s.rank - 1, updatedAt := now }
        else s) s).id = s.id := by
      intro s
      by_cases hc : s.organizationId = del.organizationId ∧ del.rank < s.rank <;>
        simp [hc]
    have hperm : db.Perm (del :: db.filter (fun s => s.id ≠ roleId)) :=
      perm_cons_filter_ne hwf (List.mem_of_find?_eq_some hfind) (id_of_find? hfind)
    have hdd := denseAll_iff.mp hd
    have hpermo : ∀ o : Nat, (rolesOf db o).Perm
        (rolesOf (del :: db.filter (fun s => s.id ≠ roleId)) o) := by
      intro o
      unfold rolesOf
      exact hperm.filter _
    constructor
    · rw [denseAll_iff]
      intro o
      unfold DenseRanks ranksOf
      rw [heq, rolesOf_map_pres hforg, List.map_map, List.length_map]
      by_cases ho : o = del.organizationId
      · have hcons : rolesOf (del :: db.filter (fun s => s.id ≠ roleId)) o =
            del :: rolesOf (db.filter (fun s => s.id ≠ roleId)) o := by
          unfold rolesOf
          rw [List.filter_cons]
          simp [ho]
        have hdel_mem : del ∈ rolesOf db o :=
          List.mem_filter.mpr ⟨List.mem_of_find?_eq_some hfind, by simp [ho]⟩
        have hdr : del.rank < (rolesOf db o).length :=
          rank_lt_of_dense (hdd o) hdel_mem
        have hpo := hpermo o
        rw [hcons] at hpo
        have hn : (rolesOf db o).length =
            (rolesOf (db.filter (fun s => s.id ≠ roleId)) o).length + 1 := by
          have := hpo.length_eq
          simpa using this
        have hdp : (ranksOf db o).Perm (List.range (rolesOf db o).length) := hdd o
        have h1 : (del.rank ::
            ranksOf (db.filter (fun s => s.id ≠ roleId)) o).Perm
            (List.range (rolesOf db o).length) := by
          refine List.Perm.trans ?_ hdp
          have := (hpo.map Role.rank).symm
          simpa [ranksOf] using this
        have h2 : (ranksOf (db.filter (fun s => s.id ≠ roleId)) o).Perm
            ((List.range (rolesOf db o).length).erase del.rank) :=
          (List.cons_perm_iff_perm_erase.mp h1).2
        have hmap : (rolesOf (db.filter (fun s => s.id ≠ roleId)) o).map
            (Role.rank ∘ (fun s =>
              if s.organizationId = del.organizationId ∧ del.rank < s.rank then
                { s with rank := s.rank - 1, updatedAt := now }
              else s)) =
            (ranksOf (db.filter (fun s => s.id ≠ roleId)) o).map
              (fun k => if del.rank < k then k - 1 else k) := by
          unfold ranksOf
          rw [List.map_map]
          apply List.map_congr_left
          intro s hs
          have hso := rolesOf_org hs
          simp only [Function.comp]
          by_cases hc : del.rank < s.rank
          · simp [hso, ho, hc]
          · simp [hso, ho, hc]
        rw [hmap]
        have hlen2 : (rolesOf (db.filter (fun s => s.id ≠ roleId)) o).length =
            (rolesOf db o).length - 1 := by omega
        rw [hlen2]
        exact (h2.map _).trans
          (rangeShiftDown del.rank (rolesOf db o).length hdr)
      · have hno : (decide (del.organizationId = o)) = false := by
          simp only [decide_eq_false_iff_not]
          exact fun hcon => ho hcon.symm
        have hcons : rolesOf (del :: db.filter (fun s => s.id ≠ roleId)) o =
            rolesOf (db.filter (fun s => s.id ≠ roleId)) o := by
          unfold rolesOf
          rw [List.filter_cons]
          simp [hno]
        have hpo := hpermo o
        rw [hcons] at hpo
        have hmapid : (rolesOf (db.filter (fun s => s.id ≠ roleId)) o).map
            (Role.rank ∘ (fun s =>
              if s.organizationId = del.organizationId ∧ del.rank < s.rank then
                { s with rank := s.rank - 1, updatedAt := now }
              else s)) =
            ranksOf (db.filter (fun s => s.id ≠ roleId)) o := by
          unfold ranksOf
          apply List.map_congr_left
          intro s hs
          have hso := rolesOf_org hs
          have hnc : ¬ (s.organizationId = del.organizationId ∧
              del.rank < s.rank) := by
            intro hcon
            exact ho (by rw [← hso]; exact hcon.1)
          simp [Function.comp, hnc]
        rw [hmapid, ← hpo.length_eq]
        have hdp : (ranksOf db o).Perm (List.range (rolesOf db o).length) := hdd o
        refine List.Perm.trans ?_ hdp
        have := (hpo.map Role.rank).symm
        simpa [ranksOf] using this
    · rw [heq]
      unfold WF
      rw [List.map_map]
      have hids : (db.filter (fun s => s.id ≠ roleId)).map
          (Role.id ∘ (fun s =>
            if s.organizationId = del.organizationId ∧ del.rank < s.rank then
              { s with rank := s.rank - 1, updatedAt := now }
            else s)) =
          (db.filter (fun s => s.id ≠ roleId)).map Role.id := by
        apply List.map_congr_left
        intro s _
        simp only [Function.comp]
        exact hfid s
      rw [hids]
      exact List.Nodup.sublist (List.Sublist.map Role.id (List.filter_sublist _)) hwf

/-- Move preserves well-formedness and density of every organization when the
destination rank is below the role's organization count. -/
theorem move_preserves (db : Db) (roleId newRank now : Nat)
    (hwf : WF db) (hd : DenseAll db)
    (hv : ∀ r ∈ db, r.id = roleId → newRank < (rolesOf db r.organizationId).length) :
    DenseAll (OrgRolesQ.UpdateRoleRank db roleId newRank now).2 ∧
    WF (OrgRolesQ.UpdateRoleRank db roleId newRank now).2 := by
  cases hfind : db.find? (fun s => s.id = roleId) with
  | none =>
    have heq : (OrgRolesQ.UpdateRoleRank db roleId newRank now).2 = db := by
      simp only [OrgRolesQ.UpdateRoleRank, hfind]
    rw [heq]
    exact ⟨hd, hwf⟩
  | some r =>
    by_cases hrk : r.rank = newRank
    · have heq : (OrgRolesQ.UpdateRoleRank db roleId newRank now).2 = db := by
        simp only [OrgRolesQ.UpdateRoleRank, hfind, if_pos hrk]
      rw [heq]
      exact ⟨hd, hwf⟩
    · have heq : (OrgRolesQ.UpdateRoleRank db roleId newRank now).2 =
          db.map (fun s =>
            if s.organizationId = r.organizationId then
              { s with
                rank :=
                  if s.id = roleId then newRank
                  else if newRank < r.rank ∧ newRank ≤ s.rank ∧ s.rank < r.rank then
                    s.rank + 1
                  else if r.rank < newRank ∧ r.rank < s.rank ∧ s.rank ≤ newRank then
                    s.rank - 1
                  else s.rank,
                updatedAt := now }
            else s) := by
        simp only [OrgRolesQ.UpdateRoleRank, hfind, if_neg hrk]
      have hforg : ∀ s : Role, ((fun s =>
          if s.organizationId = r.organizationId then
            { s with
              rank :=
                if s.id = roleId then newRank
                else if newRank < r.rank ∧ newRank ≤ s.rank ∧ s.rank < r.rank then
                  s.rank + 1
                else if r.rank < newRank ∧ r.rank < s.rank ∧ s.rank ≤ newRank then
                  s.rank - 1
                else s.rank,
              updatedAt := now }
          else s) s).organizationId = s.organizationId := by
        intro s
        by_cases hc : s.organizationId = r.organizationId <;> simp [hc]
      have hfid : ∀ s : Role, ((fun s =>
          if s.organizationId = r.organizationId then
            { s with
              rank :=
                if s.id = roleId then newRank
                else if newRank < r.rank ∧ newRank ≤ s.rank ∧ s.rank < r.rank then
                  s.rank + 1
                else if r.rank < newRank ∧ r.rank < s.rank ∧ s.rank ≤ newRank then
                  s.rank - 1
                else s.rank,
              updatedAt := now }
          else s) s).id = s.id := by
        intro s
        by_cases hc : s.organizationId = r.organizationId <;> simp [hc]
      have hrdb : r ∈ db := List.mem_of_find?_eq_some hfind
      have hrid : r.id = roleId := id_of_find? hfind
      have hdd := denseAll_iff.mp hd
      have hrmem : r ∈ rolesOf db r.organizationId :=
        List.mem_filter.mpr ⟨hrdb, by simp⟩
      have hnewlt : newRank < (rolesOf db r.organizationId).length := hv r hrdb hrid
      have hdlt : r.rank < (rolesOf db r.organizationId).length :=
        rank_lt_of_dense (hdd r.organizationId) hrmem
      have hnd_roles : (rolesOf db r.organizationId).Nodup :=
        List.Nodup.of_map Role.id (rolesOf_wf hwf r.organizationId)
      constructor
      · rw [denseAll_iff]
        intro o
        unfold DenseRanks ranksOf
        rw [heq, rolesOf_map_pres hforg, List.map_map, List.length_map]
        by_cases ho : o = r.organizationId
        · rw [ho]
          have hcons_perm : (rolesOf db r.organizationId).Perm
              (r :: (rolesOf db r.organizationId).erase r) :=
            List.perm_cons_erase hrmem
          have hEmem : ∀ s ∈ (rolesOf db r.organizationId).erase r,
              s ∈ rolesOf db r.organizationId ∧ s.id ≠ roleId := by
            intro s hs
            have hsr := (List.Nodup.mem_erase_iff hnd_roles).mp hs
            refine ⟨hsr.2, ?_⟩
            intro hcon
            exact hsr.1 (role_eq_of_id_eq hwf (List.mem_of_mem_filter hsr.2) hrdb
              (by rw [hcon, hrid]))
          have hmap : ((rolesOf db r.organizationId).erase r).map
              (Role.rank ∘ (fun s =>
                if s.organizationId = r.organizationId then
                  { s with
                    rank :=
                      if s.id = roleId then newRank
                      else if newRank < r.rank ∧ newRank ≤ s.rank ∧ s.rank < r.rank then
                        s.rank + 1
                      else if r.rank < newRank ∧ r.rank < s.rank ∧ s.rank ≤ newRank then
                        s.rank - 1
                      else s.rank,
                    updatedAt := now }
                else s)) =
              (((rolesOf db r.organizationId).erase r).map Role.rank).map
                (fun k =>
                  if newRank < r.rank ∧ newRank ≤ k ∧ k < r.rank then k + 1
                  else if r.rank < newRank ∧ r.rank < k ∧ k ≤ newRank then k - 1
                  else k) := by
            rw [List.map_map]
            apply List.map_congr_left
            intro s hs
            have hso := rolesOf_org (hEmem s hs).1
            have hsid := (hEmem s hs).2
            simp [Function.comp, hso, hsid]
          have hrrank : (Role.rank ∘ (fun s =>
              if s.organizationId = r.organizationId then
                { s with
                  rank :=
                    if s.id = roleId then newRank
                    else if newRank < r.rank ∧ newRank ≤ s.rank ∧ s.rank < r.rank then
                      s.rank + 1
                    else if r.rank < newRank ∧ r.rank < s.rank ∧ s.rank ≤ newRank then
                      s.rank - 1
                    else s.rank,
                  updatedAt := now }
              else s)) r = newRank := by
            simp [Function.comp, hrid]
          have hEranks : (((rolesOf db r.organizationId).erase r).map Role.rank).Perm
              ((List.range (rolesOf db r.organizationId).length).erase r.rank) := by
            have h1 : (r.rank ::
                ((rolesOf db r.organizationId).erase r).map Role.rank).Perm
                (List.range (rolesOf db r.organizationId).length) := by
              refine List.Perm.trans ?_ (hdd r.organizationId)
              have := (hcons_perm.map Role.rank).symm
              simpa [ranksOf] using this
            exact (List.cons_perm_iff_perm_erase.mp h1).2
          refine List.Perm.trans (hcons_perm.map _) ?_
          rw [List.map_cons, hmap, hrrank]
          refine List.Perm.trans ((hEranks.map _).cons newRank) ?_
          exact rangeMove r.rank newRank (rolesOf db r.organizationId).length
            hdlt hnewlt (fun hcon => hrk hcon)
        · have hmapid : (rolesOf db o).map
              (Role.rank ∘ (fun s =>
                if s.organizationId = r.organizationId then
                  { s with
                    rank :=
                      if s.id = roleId then newRank
                      else if newRank < r.rank ∧ newRank ≤ s.rank ∧ s.rank < r.rank then
                        s.rank + 1
                      else if r.rank < newRank ∧ r.rank < s.rank ∧ s.rank ≤ newRank then
                        s.rank - 1
                      else s.rank,
                    updatedAt := now }
                else s)) = ranksOf db o := by
            unfold ranksOf
            apply List.map_congr_left
            intro s hs
            have hso := rolesOf_org hs
            have hnc : ¬ s.organizationId = r.organizationId := by
              intro hcon
              exact ho (by rw [← hso]; exact hcon)
            simp [Function.comp, hnc]
          rw [hmapid]
          exact hdd o
      · rw [heq]
        unfold WF
        rw [List.map_map]
        have hids : db.map (Role.id ∘ (fun s =>
            if s.organizationId = r.organizationId then
              { s with
                rank :=
                  if s.id = roleId then newRank
                  else if newRank < r.rank ∧ newRank ≤ s.rank ∧ s.rank < r.rank then
                    s.rank + 1
                  else if r.rank < newRank ∧ r.rank < s.rank ∧ s.rank ≤ newRank then
                    s.rank - 1
                  else s.rank,
                updatedAt := now }
            else s)) = db.map Role.id := by
          apply List.map_congr_left
          intro s _
          simp only [Function.comp]
          exact hfid s
        rw [hids]
        exact hwf

/-- In a dense organization the rank-ordered selection lists the ranks
`0, 1, ..., n-1` in order. -/
theorem selectByOrg_map_rank {db : Db} {o : Nat} (hdo : DenseRanks db o) :
    (OrgRolesQ.selectByOrg db o).map Role.rank =
      List.range (OrgRolesQ.selectByOrg db o).length := by
  have hsorted : List.Sorted OrgRolesQ.roleLe (OrgRolesQ.selectByOrg db o) :=
    List.sorted_insertionSort OrgRolesQ.roleLe _
  have hsorted2 : List.Sorted (· ≤ ·)
      ((OrgRolesQ.selectByOrg db o).map Role.rank) := by
    refine List.Pairwise.map Role.rank ?_ hsorted
    intro a b hab
    unfold OrgRolesQ.roleLe at hab
    omega
  have h1 : (OrgRolesQ.selectByOrg db o).Perm (rolesOf db o) :=
    List.perm_insertionSort _ _
  have h3 : (ranksOf db o).Perm (List.range (rolesOf db o).length) := hdo
  have hperm : ((OrgRolesQ.selectByOrg db o).map Role.rank).Perm
      (List.range (OrgRolesQ.selectByOrg db o).length) := by
    refine List.Perm.trans (h1.map Role.rank) ?_
    rw [h1.length_eq]
    exact h3
  exact List.eq_of_perm_of_sorted hperm hsorted2 (List.sorted_le_range _)

/-- Mapping each element of a duplicate-free list to its index enumerates the
positions `0, 1, ..., n-1` in order. -/
theorem map_indexOf_self (l : List Nat) (hnd : l.Nodup) :
    l.map (fun x => l.indexOf x) = List.range l.length := by
  apply List.ext_getElem
  · simp
  · intro i h1 h2
    rw [List.length_map] at h1
    simp only [List.getElem_map, List.getElem_range]
    have hmem : l[i] ∈ l := List.getElem_mem h1
    have hlt : l.indexOf l[i] < l.length := List.indexOf_lt_length.mpr hmem
    have hget : l[l.indexOf l[i]] = l[i] := List.getElem_indexOf hlt
    exact (List.Nodup.getElem_inj_iff hnd).mp hget

/-- Membership in the diff list: an entry pairs the target id at a position
with that position, exactly when the role currently there carries another id.
-/
theorem changedPairs_mem_iff :
    ∀ (rs : List Role) (ts : List Nat) (i x p : Nat),
    ((x, p) ∈ OrgRolesQ.changedPairs rs ts i ↔
      ∃ j, p = i + j ∧ ts[j]? = some x ∧
        ∃ r, rs[j]? = some r ∧ r.id ≠ x) := by
  intro rs
  induction rs with
  | nil =>
    intro ts i x p
    constructor
    · intro h
      cases ts with
      | nil => simp [OrgRolesQ.changedPairs] at h
      | cons t ts2 => simp [OrgRolesQ.changedPairs] at h
    · rintro ⟨j, hp, hts, r2, hrs, hne2⟩
      simp at hrs
  | cons r rs2 ih =>
    intro ts i x p
    cases ts with
    | nil =>
      constructor
      · intro h
        simp [OrgRolesQ.changedPairs] at h
      · rintro ⟨j, hp, hts, r2, hrs, hne2⟩
        simp at hts
    | cons t ts2 =>
      simp only [OrgRolesQ.changedPairs]
      by_cases hne : r.id ≠ t
      · rw [if_pos hne]
        constructor
        · intro h
          rcases List.mem_cons.mp h with heq | h2
          · simp only [Prod.mk.injEq] at heq
            refine ⟨0, by omega, by simp [heq.1], r, by simp, ?_⟩
            rw [heq.1]
            exact hne
          · obtain ⟨j, hp, hts, r2, hrs, hne2⟩ := (ih ts2 (i + 1) x p).mp h2
            exact ⟨j + 1, by omega, by simpa using hts, r2, by simpa using hrs, hne2⟩
        · rintro ⟨j, hp, hts, r2, hrs, hne2⟩
          cases j with
          | zero =>
            have ht : t = x := by simpa using hts
            have hr : r = r2 := by simpa using hrs
            have hxp : (x, p) = (t, i) := by
              simp only [Prod.mk.injEq]
              exact ⟨ht.symm, by omega⟩
            rw [hxp]
            exact List.mem_cons_self _ _
          | succ j2 =>
            apply List.mem_cons_of_mem
            exact (ih ts2 (i + 1) x p).mpr
              ⟨j2, by omega, by simpa using hts, r2, by simpa using hrs, hne2⟩
      · rw [if_neg hne]
        constructor
        · intro h
          obtain ⟨j, hp, hts, r2, hrs, hne2⟩ := (ih ts2 (i + 1) x p).mp h
          exact ⟨j + 1, by omega, by simpa using hts, r2, by simpa using hrs, hne2⟩
        · rintro ⟨j, hp, hts, r2, hrs, hne2⟩
          cases j with
          | zero =>
            exfalso
            have ht : t = x := by simpa using hts
            have hr : r = r2 := by simpa using hrs
            apply hne2
            rw [← hr, ← ht]
            exact not_not.mp hne
          | succ j2 =>
            exact (ih ts2 (i + 1) x p).mpr
              ⟨j2, by omega, by simpa using hts, r2, by simpa using hrs, hne2⟩

/-- With pairwise-distinct target ids the diff keys are pairwise distinct. -/
theorem changedPairs_keys_nodup :
    ∀ (rs : List Role) (ts : List Nat) (i : Nat), ts.Nodup →
    ((OrgRolesQ.changedPairs rs ts i).map Prod.fst).Nodup := by
  intro rs
  induction rs with
  | nil =>
    intro ts i hnd
    cases ts <;> simp [OrgRolesQ.changedPairs]
  | cons r rs2 ih =>
    intro ts i hnd
    cases ts with
    | nil => simp [OrgRolesQ.changedPairs]
    | cons t ts2 =>
      have hnd2 : t ∉ ts2 ∧ ts2.Nodup := by
        simpa [List.nodup_cons] using hnd
      simp only [OrgRolesQ.changedPairs]
      by_cases hne : r.id ≠ t
      · rw [if_pos hne]
        simp only [List.map_cons, List.nodup_cons]
        refine ⟨?_, ih ts2 (i + 1) hnd2.2⟩
        intro hcon
        rcases List.mem_map.mp hcon with ⟨c, hc, hc1⟩
        have := changedPairs_fst_mem rs2 ts2 (i + 1) c hc
        exact hnd2.1 (hc1 ▸ this)
      · rw [if_neg hne]
        exact ih ts2 (i + 1) hnd2.2

/-- After a successful validation the filled target permutation holds exactly
the organization's role ids (each exactly once). -/
theorem target_perm_ids (db : Db) (o : Nat) (order used : List (Nat × Nat))
    (hwf : WF db)
    (hk : (order.map Prod.fst).Nodup)
    (hval : OrgRolesQ.validateOrder ((OrgRolesQ.selectByOrg db o).map Role.id) o
      (OrgRolesQ.selectByOrg db o).length order [] = .ok used) :
    (OrgRolesQ.fillPositions used 0 (OrgRolesQ.selectByOrg db o).length
      (((OrgRolesQ.selectByOrg db o).map Role.id).filter
        (fun x => (order.find? (fun e => e.1 = x)).isNone))).Perm
      ((OrgRolesQ.selectByOrg db o).map Role.id) := by
  have hund : (used.map Prod.fst).Nodup :=
    validateOrder_ok_ranks_nodup (by simp) hval
  have hent := validateOrder_ok_used_entries
    (fun u hu => absurd hu (List.not_mem_nil u)) hval
  have hu_struct := validateOrder_ok_used hk (by simp) hval
  have hulen : used.length = order.length := by
    rw [hu_struct]
    simp
  have hidnd := selectByOrg_ids_nodup (o := o) hwf
  have hkeysub : ∀ e ∈ order, e.1 ∈ (OrgRolesQ.selectByOrg db o).map Role.id :=
    fun e he => (validateOrder_ok_entries hval e he).2
  have hrl := rest_length hk hidnd hkeysub
  have hfl : used.filter (fun e => 0 ≤ e.1) = used := by
    rw [List.filter_eq_self]
    intro u hu
    simp
  have hlenf : (used.filter (fun e => 0 ≤ e.1)).length +
      ((((OrgRolesQ.selectByOrg db o).map Role.id)).filter
        (fun x => (order.find? (fun e => e.1 = x)).isNone)).length =
      (OrgRolesQ.selectByOrg db o).length := by
    rw [hfl, hulen]
    have hlm : ((OrgRolesQ.selectByOrg db o).map Role.id).length =
        (OrgRolesQ.selectByOrg db o).length := List.length_map _ _
    omega
  have htperm := fillPositions_perm used (OrgRolesQ.selectByOrg db o).length 0
    ((((OrgRolesQ.selectByOrg db o).map Role.id)).filter
      (fun x => (order.find? (fun e => e.1 = x)).isNone))
    hund (fun e he => by have := (hent e he).1; omega) hlenf
  rw [hfl] at htperm
  refine htperm.trans ?_
  have hsnd : used.map Prod.snd = (order.map Prod.fst).reverse := by
    rw [hu_struct]
    simp [List.map_reverse, List.map_map]
  rw [hsnd]
  have hrest_eq : (((OrgRolesQ.selectByOrg db o).map Role.id).filter
      (fun x => (order.find? (fun e => e.1 = x)).isNone)) =
      (((OrgRolesQ.selectByOrg db o).map Role.id).filter
        (fun x => !decide (x ∈ order.map Prod.fst))) := by
    apply List.filter_congr
    intro x hx
    rw [find?_isNone_key]
    simp
  have hinK : ((((OrgRolesQ.selectByOrg db o).map Role.id)).filter
      (fun x => decide (x ∈ order.map Prod.fst))).Perm (order.map Prod.fst) := by
    apply List.Subperm.antisymm
    · apply List.subperm_of_subset
      · exact List.Nodup.sublist (List.filter_sublist _) hidnd
      · intro x hx
        have := List.of_mem_filter hx
        simpa using this
    · apply List.subperm_of_subset hk
      intro x hx
      rcases List.mem_map.mp hx with ⟨e, he, rfl⟩
      rw [List.mem_filter]
      exact ⟨hkeysub e he, by simpa using hx⟩
  rw [hrest_eq]
  refine List.Perm.trans
    (List.Perm.append (List.reverse_perm _) (List.Perm.refl _)) ?_
  refine List.Perm.trans (List.Perm.append hinK.symm (List.Perm.refl _)) ?_
  exact List.filter_append_perm _ _

/-- The write phase of a bulk reorder: rewriting each organization role to its
position in a duplicate-free target permutation of the organization's ids
preserves well-formedness and density of every organization. -/
theorem bulk_dense_core (db : Db) (o now : Nat) (target : List Nat)
    (hwf : WF db) (hd : DenseAll db)
    (htlen : target.length = (OrgRolesQ.selectByOrg db o).length)
    (hperm_ids : target.Perm ((OrgRolesQ.selectByOrg db o).map Role.id)) :
    DenseAll (db.map (fun s =>
      if s.organizationId = o then
        match (OrgRolesQ.changedPairs (OrgRolesQ.selectByOrg db o) target 0).find?
            (fun c => c.1 = s.id) with
        | some c => { s with rank := c.2, updatedAt := now }
        | none => s
      else s)) ∧
    WF (db.map (fun s =>
      if s.organizationId = o then
        match (OrgRolesQ.changedPairs (OrgRolesQ.selectByOrg db o) target 0).find?
            (fun c => c.1 = s.id) with
        | some c => { s with rank := c.2, updatedAt := now }
        | none => s
      else s)) := by
  have hdd := denseAll_iff.mp hd
  have hidnd : ((OrgRolesQ.selectByOrg db o).map Role.id).Nodup :=
    selectByOrg_ids_nodup hwf
  have htnd : target.Nodup := hperm_ids.nodup_iff.mpr hidnd
  have hRperm : (OrgRolesQ.selectByOrg db o).Perm (rolesOf db o) :=
    List.perm_insertionSort _ _
  have hrankmap := selectByOrg_map_rank (hdd o)
  have hforg : ∀ s : Role, ((fun s =>
      if s.organizationId = o then
        match (OrgRolesQ.changedPairs (OrgRolesQ.selectByOrg db o) target 0).find?
            (fun c => c.1 = s.id) with
        | some c => { s with rank := c.2, updatedAt := now }
        | none => s
      else s) s).organizationId = s.organizationId := by
    intro s
    by_cases hc : s.organizationId = o
    · cases hcf : (OrgRolesQ.changedPairs (OrgRolesQ.selectByOrg db o) target 0).find?
          (fun c => c.1 = s.id) <;> simp [hc, hcf]
    · simp [hc]
  have hfid : ∀ s : Role, ((fun s =>
      if s.organizationId = o then
        match (OrgRolesQ.changedPairs (OrgRolesQ.selectByOrg db o) target 0).find?
            (fun c => c.1 = s.id) with
        | some c => { s with rank := c.2, updatedAt := now }
        | none => s
      else s) s).id = s.id := by
    intro s
    by_cases hc : s.organizationId = o
    · cases hcf : (OrgRolesQ.changedPairs (OrgRolesQ.selectByOrg db o) target 0).find?
          (fun c => c.1 = s.id) <;> simp [hc, hcf]
    · simp [hc]
  constructor
  · rw [denseAll_iff]
    intro o2
    unfold DenseRanks ranksOf
    rw [rolesOf_map_pres hforg, List.map_map, List.length_map]
    by_cases ho : o2 = o
    · rw [ho]
      have hmapeq : (rolesOf db o).map (Role.rank ∘ (fun s =>
          if s.organizationId = o then
            match (OrgRolesQ.changedPairs (OrgRolesQ.selectByOrg db o) target 0).find?
                (fun c => c.1 = s.id) with
            | some c => { s with rank := c.2, updatedAt := now }
            | none => s
          else s)) = (rolesOf db o).map (fun s => target.indexOf s.id) := by
        apply List.map_congr_left
        intro s hs
        have hso := rolesOf_org hs
        have hsdb : s ∈ db := List.mem_of_mem_filter hs
        have hsR : s ∈ OrgRolesQ.selectByOrg db o := hRperm.mem_iff.mpr hs
        have hsid_ids : s.id ∈ (OrgRolesQ.selectByOrg db o).map Role.id :=
          List.mem_map_of_mem Role.id hsR
        have hsid_t : s.id ∈ target := hperm_ids.mem_iff.mpr hsid_ids
        have hjlt : target.indexOf s.id < target.length :=
          List.indexOf_lt_length.mpr hsid_t
        have hjR : target.indexOf s.id < (OrgRolesQ.selectByOrg db o).length := by
          rw [← htlen]
          exact hjlt
        have htj : target[target.indexOf s.id] = s.id := List.getElem_indexOf hjlt
        simp only [Function.comp]
        rw [if_pos hso]
        by_cases hsame : (OrgRolesQ.selectByOrg db o)[target.indexOf s.id].id = s.id
        · have hseq : (OrgRolesQ.selectByOrg db o)[target.indexOf s.id] = s :=
            role_eq_of_id_eq hwf
              (mem_selectByOrg.mp (List.getElem_mem hjR)).1 hsdb hsame
          have hsrank : s.rank = target.indexOf s.id := by
            have h1 : ((OrgRolesQ.selectByOrg db o).map
                Role.rank)[target.indexOf s.id]? =
                (List.range
                  (OrgRolesQ.selectByOrg db o).length)[target.indexOf s.id]? := by
              rw [hrankmap]
            rw [List.getElem?_map, List.getElem?_eq_getElem hjR,
              List.getElem?_range hjR] at h1
            have h2 : (OrgRolesQ.selectByOrg db o)[target.indexOf s.id].rank =
                target.indexOf s.id := by
              simpa using h1
            rw [hseq] at h2
            exact h2
          have hnone : (OrgRolesQ.changedPairs (OrgRolesQ.selectByOrg db o)
              target 0).find? (fun c => c.1 = s.id) = none := by
            rw [List.find?_eq_none]
            intro c hc hcp
            obtain ⟨x, p⟩ := c
            have hx : x = s.id := by simpa using hcp
            subst hx
            obtain ⟨j2, hp, hts, r2, hrs, hne2⟩ :=
              (changedPairs_mem_iff _ _ _ _ _).mp hc
            obtain ⟨hj2, htsv⟩ := List.getElem?_eq_some.mp hts
            have hj2eq : j2 = target.indexOf s.id := by
              apply (List.Nodup.getElem_inj_iff htnd).mp
              rw [htsv, htj]
            subst hj2eq
            obtain ⟨hj2R, hrsv⟩ := List.getElem?_eq_some.mp hrs
            apply hne2
            rw [← hrsv]
            exact hsame
          rw [hnone]
          simpa using hsrank
        · have hmem : (s.id, target.indexOf s.id) ∈
              OrgRolesQ.changedPairs (OrgRolesQ.selectByOrg db o) target 0 := by
            refine (changedPairs_mem_iff _ _ _ _ _).mpr
              ⟨target.indexOf s.id, by omega, ?_,
                (OrgRolesQ.selectByOrg db o)[target.indexOf s.id], ?_, hsame⟩
            · rw [List.getElem?_eq_getElem hjlt, htj]
            · rw [List.getElem?_eq_getElem hjR]
          have hkeysnd :=
            changedPairs_keys_nodup (OrgRolesQ.selectByOrg db o) target 0 htnd
          have hfind2 : (OrgRolesQ.changedPairs (OrgRolesQ.selectByOrg db o)
              target 0).find? (fun c => c.1 = s.id) =
              some (s.id, target.indexOf s.id) :=
            find?_rank_unique hkeysnd hmem
          rw [hfind2]
      rw [hmapeq]
      have hlen_o : (rolesOf db o).length = (OrgRolesQ.selectByOrg db o).length :=
        hRperm.length_eq.symm
      rw [hlen_o, ← htlen]
      refine List.Perm.trans (hRperm.symm.map _) ?_
      have hcomp : (OrgRolesQ.selectByOrg db o).map (fun s => target.indexOf s.id) =
          ((OrgRolesQ.selectByOrg db o).map Role.id).map
            (fun x => target.indexOf x) := by
        rw [List.map_map]
        apply List.map_congr_left
        intro u _
        rfl
      rw [hcomp]
      refine List.Perm.trans (hperm_ids.symm.map _) ?_
      rw [map_indexOf_self target htnd]
    · have hmapid : (rolesOf db o2).map (Role.rank ∘ (fun s =>
          if s.organizationId = o then
            match (OrgRolesQ.changedPairs (OrgRolesQ.selectByOrg db o) target 0).find?
                (fun c => c.1 = s.id) with
            | some c => { s with rank := c.2, updatedAt := now }
            | none => s
          else s)) = ranksOf db o2 := by
        unfold ranksOf
        apply List.map_congr_left
        intro s hs
        have hso := rolesOf_org hs
        have hnc : ¬ s.organizationId = o := by
          intro hcon
          exact ho (by rw [← hso]; exact hcon)
        simp [Function.comp, hnc]
      rw [hmapid]
      exact hdd o2
  · unfold WF
    rw [List.map_map]
    have hids2 : db.map (Role.id ∘ (fun s =>
        if s.organizationId = o then
          match (OrgRolesQ.changedPairs (OrgRolesQ.selectByOrg db o) target 0).find?
              (fun c => c.1 = s.id) with
          | some c => { s with rank := c.2, updatedAt := now }
          | none => s
        else s)) = db.map Role.id := by
      apply List.map_congr_left
      intro s _
      simp only [Function.comp]
      exact hfid s
    rw [hids2]
    exact hwf

set_option maxHeartbeats 1000000 in
/-- Bulk reorder preserves well-formedness and density of every organization
when the assignment's role keys are pairwise distinct (a Go map). -/
theorem bulk_preserves (db : Db) (o now : Nat) (order : List (Nat × Nat))
    (hwf : WF db) (hd : DenseAll db) (hk : (order.map Prod.fst).Nodup) :
    DenseAll (OrgRolesQ.UpdateRolesRanks db o order now).2 ∧
    WF (OrgRolesQ.UpdateRolesRanks db o order now).2 := by
  cases hne : (OrgRolesQ.selectByOrg db o).isEmpty with
  | true =>
    have heq : (OrgRolesQ.UpdateRolesRanks db o order now).2 = db := by
      simp [OrgRolesQ.UpdateRolesRanks, hne]
    rw [heq]
    exact ⟨hd, hwf⟩
  | false =>
    cases hval : OrgRolesQ.validateOrder ((OrgRolesQ.selectByOrg db o).map Role.id)
        o (OrgRolesQ.selectByOrg db o).length order [] with
    | error e =>
      have heq : (OrgRolesQ.UpdateRolesRanks db o order now).2 = db := by
        simp [OrgRolesQ.UpdateRolesRanks, hne, hval]
      rw [heq]
      exact ⟨hd, hwf⟩
    | ok used =>
      cases hch : (OrgRolesQ.changedPairs (OrgRolesQ.selectByOrg db o)
          (OrgRolesQ.fillPositions used 0 (OrgRolesQ.selectByOrg db o).length
            (((OrgRolesQ.selectByOrg db o).map Role.id).filter
              (fun x => (order.find? (fun e => e.1 = x)).isNone))) 0).isEmpty with
      | true =>
        have heq : (OrgRolesQ.UpdateRolesRanks db o order now).2 = db := by
          simp [OrgRolesQ.UpdateRolesRanks, hne, hval, hch]
        rw [heq]
        exact ⟨hd, hwf⟩
      | false =>
        have heq : (OrgRolesQ.UpdateRolesRanks db o order now).2 =
            db.map (fun s =>
              if s.organizationId = o then
                match (OrgRolesQ.changedPairs (OrgRolesQ.selectByOrg db o)
                    (OrgRolesQ.fillPositions used 0
                      (OrgRolesQ.selectByOrg db o).length
                      (((OrgRolesQ.selectByOrg db o).map Role.id).filter
                        (fun x => (order.find? (fun e => e.1 = x)).isNone)))
                    0).find? (fun c => c.1 = s.id) with
                | some c => { s with rank := c.2, updatedAt := now }
                | none => s
              else s) := by
          simp [OrgRolesQ.UpdateRolesRanks, hne, hval, hch]
        rw [heq]
        exact bulk_dense_core db o now
          (OrgRolesQ.fillPositions used 0 (OrgRolesQ.selectByOrg db o).length
            (((OrgRolesQ.selectByOrg db o).map Role.id).filter
              (fun x => (order.find? (fun e => e.1 = x)).isNone)))
          hwf hd
          (fillPositions_length used (OrgRolesQ.selectByOrg db o).length 0 _)
          (target_perm_ids db o order used hwf hk hval)

/-- One in-range operation preserves well-formedness and density. -/
theorem applyOp_preserves (db : Db) (op : Op) (hwf : WF db) (hd : DenseAll db)
    (hv : ValidOp db op) : DenseAll (applyOp db op) ∧ WF (applyOp db op) := by
  cases op with
  | insert data newId => exact insert_preserves db data newId 0 hwf hd hv.1 hv.2
  | move roleId newRank => exact move_preserves db roleId newRank 0 hwf hd hv
  | delete roleId => exact delete_preserves db roleId 0 hwf hd
  | bulk organizationId order => exact bulk_preserves db organizationId 0 order hwf hd hv

/-- A sequence of in-range operations preserves well-formedness and density.
-/
theorem preserve_all : ∀ (ops : List Op) (db : Db), WF db → DenseAll db →
    ValidSeq db ops → DenseAll (applyOps db ops) ∧ WF (applyOps db ops) := by
  intro ops
  induction ops with
  | nil =>
    intro db hwf hd _
    exact ⟨hd, hwf⟩
  | cons op ops2 ih =>
    intro db hwf hd hv
    have h1 := applyOp_preserves db op hwf hd hv.1
    exact ih (applyOp db op) h1.2 h1.1 hv.2

/-- C1 (amended): for every organization, after any sequence of
InsertAtRank/MoveRank/DeleteAndShiftRanks/BulkReorder operations starting from
a table with unique role ids whose every organization holds ranks
`{0, ..., n-1}`, the rank multiset of every organization again equals exactly
`{0, ..., n-1}` with `n` the new role count — no duplicates and no gaps —
provided each insert uses a desired rank of at most the organization's current
count and a fresh role id, each move targets a rank below the role's
organization count, and each bulk assignment is keyed like a Go map (no
repeated role key); deletes are unrestricted.  Without these provisos the
invariant fails (see the counterexample). -/
theorem c1_rank_invariant (db : Db) (ops : List Op)
    (hwf : WF db) (hd : DenseAll db) (hv : ValidSeq db ops) :
    DenseAll (applyOps db ops) :=
  (preserve_all ops db hwf hd hv).1

/-- Counterexample to C1 as stated (over all operation sequences): an insert
with desired rank 2 into a one-role organization leaves the rank multiset
`{0, 2}` (a gap); a move of the only role to rank 5 leaves `{5}`; in a
well-formed two-role table, inserting with an id duplicating an existing role
and then deleting that id removes two rows at once and leaves `{1}` — all
three end states violate the dense-rank invariant. -/
theorem c1_counterexample :
    (WF dbA ∧ DenseAll dbA ∧
      ¬ DenseAll (applyOps dbA [Op.insert insertRank2 9])) ∧
    (¬ DenseAll (applyOps dbA [Op.move 1 5])) ∧
    (WF dbAB ∧ DenseAll dbAB ∧
      ¬ DenseAll (applyOps dbAB [Op.insert insertRank0 2, Op.delete 2])) := by
  decide

/-- Witness for C1 at `[A@0, B@1, C@2, D@3]` under the in-range sequence
insert at rank 2, move the new role to rank 0, bulk-assign role 1 to rank 4,
delete role 3: density holds at the end. -/
theorem c1_witness :
    WF dbABCD ∧ DenseAll dbABCD ∧
    ValidSeq dbABCD [Op.insert insertRank2 9, Op.move 9 0,
      Op.bulk 1 [(1, 4)], Op.delete 3] ∧
    DenseAll (applyOps dbABCD [Op.insert insertRank2 9, Op.move 9 0,
      Op.bulk 1 [(1, 4)], Op.delete 3]) :=
  ⟨by decide, by decide, by decide,
    c1_rank_invariant dbABCD [Op.insert insertRank2 9, Op.move 9 0,
      Op.bulk 1 [(1, 4)], Op.delete 3] (by decide) (by decide) (by decide)⟩
